import Mathlib

/-!
# Verification of the biblio-ebook-parser core

A shallow embedding, in Lean 4, of the parsing core of the
`biblio-ebook-parser` Go repository (EPUB and FB2 ebook parsers), together
with theorems settling the specification claims about that core.

Modelling conventions:
* Go strings are embedded as `List Char` (`GoStr`); Go string indices/offsets
  become rune offsets, which coincide with Go's byte offsets on ASCII data
  and compose with slicing the same way on all data.
* Go byte slices are embedded as `List Nat` (each entry a byte value).
* External collaborators (file access inside ZIP archives, `filepath.Join`,
  the IANA charset registry, `html.UnescapeString`) are parameters of the
  embedded functions, universally quantified in the theorems.
* The regular expressions the source applies are embedded as deterministic
  scanners implementing exactly the leftmost, non-overlapping matching the
  Go `regexp` package performs for these particular patterns.
* Go map iteration order (which Go leaves unspecified) is modelled as the
  declaration order of the underlying manifest list.
-/

/-- Go strings, embedded as their rune sequences. -/
abbrev GoStr := List Char

/-- Rune list of a Lean string literal. -/
def strOf (s : String) : GoStr := s.data

/-- `unicode.IsSpace` for the code points Go's `strings.TrimSpace` trims:
Latin-1 white space plus the Unicode Z* categories. -/
def goIsSpace (c : Char) : Bool :=
  let n := c.toNat
  (9 ≤ n && n ≤ 13) || n = 32 || n = 0x85 || n = 0xA0 || n = 0x1680 ||
  (0x2000 ≤ n && n ≤ 0x200A) || n = 0x2028 || n = 0x2029 || n = 0x202F ||
  n = 0x205F || n = 0x3000

/-- Drop the trailing run of characters satisfying `p`. -/
def dropTrailing (p : Char → Bool) (l : GoStr) : GoStr :=
  (l.reverse.dropWhile p).reverse

/-- Go `strings.TrimSpace`. -/
def goTrimSpace (l : GoStr) : GoStr :=
  dropTrailing goIsSpace (l.dropWhile goIsSpace)

/-- ASCII lowercasing of one character (the fragment of Go's
`strings.ToLower` relevant to the ASCII patterns the source compares
against). -/
def asciiLowerChar (c : Char) : Char :=
  if 'A' ≤ c && c ≤ 'Z' then Char.ofNat (c.toNat + 32) else c

/-- ASCII lowercasing of a string. -/
def asciiLower (l : GoStr) : GoStr := l.map asciiLowerChar

/-- Go `strings.HasSuffix`. -/
def endsWith (l suffixStr : GoStr) : Bool :=
  decide (l.drop (l.length - suffixStr.length) = suffixStr) && decide (suffixStr.length ≤ l.length)

/-- Whether `sub` occurs as a contiguous substring of `l`
(Go `strings.Contains`). -/
def containsSub (l sub : GoStr) : Bool := decide (sub <:+: l)

/-- Decimal digit test. -/
def isDigitChar (c : Char) : Bool := '0' ≤ c && c ≤ '9'

/-- Value of a nonempty all-digit string, `none` otherwise. -/
def digitsVal : GoStr → Option Nat
  | [] => none
  | l =>
    if l.all isDigitChar then
      some (l.foldl (fun acc c => acc * 10 + (c.toNat - 48)) 0)
    else none

/-- Go `strconv.Atoi` (64-bit `int`): optional sign, at least one digit,
nothing else, result within the `int64` range. `none` models a non-nil
error. -/
def goAtoi (l : GoStr) : Option Int :=
  match l with
  | [] => none
  | c :: rest =>
    let signed : Bool × GoStr :=
      if c = '-' then (true, rest) else if c = '+' then (false, rest) else (false, l)
    match digitsVal signed.2 with
    | none => none
    | some n =>
      if signed.1 then
        if n ≤ 2 ^ 63 then some (-(n : Int)) else none
      else
        if n ≤ 2 ^ 63 - 1 then some (n : Int) else none

/-- Embeds `parseSeriesNumber` from the FB2 parser: trim, empty means 0,
parse failure means 1, non-positive means 1, positive value kept. -/
def parseSeriesNumber (s : GoStr) : Int :=
  let t := goTrimSpace s
  if t = [] then 0
  else
    match goAtoi t with
    | some n => if n > 0 then n else 1
    | none => 1

/-- Written from the spec's words (claim C5): the mapping applied to the
*trimmed* series-number string — empty to 0, non-numeric to 1, numeric
non-positive to 1, numeric positive to itself ("numeric" meaning the
string parses as a machine integer). -/
def seriesNumberSpec (t : GoStr) : Int :=
  if t = [] then 0
  else
    match goAtoi t with
    | none => 1
    | some n => if 0 < n then n else 1

/-- C5: FB2 series-number parsing maps the trimmed input exactly as the
spec's table states: empty ↦ 0, non-numeric ↦ 1, numeric ≤ 0 ↦ 1,
numeric > 0 ↦ itself. -/
theorem parseSeriesNumber_follows_spec (s : GoStr) :
    parseSeriesNumber s = seriesNumberSpec (goTrimSpace s) := by
  unfold parseSeriesNumber seriesNumberSpec
  cases h : goTrimSpace s with
  | nil => simp
  | cons c rest =>
    simp only []
    cases hA : goAtoi (c :: rest) with
    | none => simp [hA]
    | some n => simp [hA, gt_iff_lt]

/-- Sanity instances of C5 on the spec's own examples. -/
example : parseSeriesNumber (strOf "") = 0 := by decide
example : parseSeriesNumber (strOf "abc") = 1 := by decide
example : parseSeriesNumber (strOf "-5") = 1 := by decide
example : parseSeriesNumber (strOf "7") = 7 := by decide
example : parseSeriesNumber (strOf "0") = 1 := by decide
example : parseSeriesNumber (strOf " 12 ") = 12 := by decide

/-! ## FB2 charset reader (claim C8) -/

/-- The byte-stream decoding transforms the FB2 charset reader can hand
back; `iana s` stands for an encoding obtained from the IANA registry
lookup for label `s`. -/
inductive Decoder where
  | passThrough
  | windows1251
  | windows1252
  | iso8859_1
  | koi8r
  | koi8u
  | utf16le
  | utf16be
  | iana (label : GoStr)
  deriving DecidableEq, Repr

/-- Embeds `charsetReader` from the FB2 parser. The IANA registry is a
parameter `reg`: `.error` models a lookup error, `.ok none` a nil
encoding, `.ok (some e)` a found encoding. The `Except GoStr` result
mirrors the Go `(io.Reader, error)` pair: `.error` would model a non-nil
error (no branch produces one). -/
def charsetReader (reg : GoStr → Except GoStr (Option Decoder)) (charset : GoStr) :
    Except GoStr Decoder :=
  let c := asciiLower charset
  if c = strOf "windows-1251" then .ok .windows1251
  else if c = strOf "windows-1252" then .ok .windows1252
  else if c = strOf "iso-8859-1" ∨ c = strOf "latin1" then .ok .iso8859_1
  else if c = strOf "koi8-r" then .ok .koi8r
  else if c = strOf "koi8-u" then .ok .koi8u
  else if c = strOf "utf-8" ∨ c = [] then .ok .passThrough
  else if c = strOf "utf-16" ∨ c = strOf "utf-16le" then .ok .utf16le
  else if c = strOf "utf-16be" then .ok .utf16be
  else
    match reg c with
    | .error _ => .ok .passThrough
    | .ok none => .ok .passThrough
    | .ok (some e) => .ok e

/-- Written from the spec's words (claim C8): the decoding transform every
charset label resolves to — known labels to their code pages, `utf-8` or
empty to pass-through, anything else via the IANA registry with
pass-through on a failed or nil lookup. -/
def charsetTransformSpec (reg : GoStr → Except GoStr (Option Decoder)) (charset : GoStr) :
    Decoder :=
  let c := asciiLower charset
  if c = strOf "windows-1251" then .windows1251
  else if c = strOf "windows-1252" then .windows1252
  else if c = strOf "iso-8859-1" ∨ c = strOf "latin1" then .iso8859_1
  else if c = strOf "koi8-r" then .koi8r
  else if c = strOf "koi8-u" then .koi8u
  else if c = strOf "utf-8" ∨ c = [] then .passThrough
  else if c = strOf "utf-16" ∨ c = strOf "utf-16le" then .utf16le
  else if c = strOf "utf-16be" then .utf16be
  else
    match reg c with
    | .error _ => .passThrough
    | .ok none => .passThrough
    | .ok (some e) => e

/-- C8: the FB2 charset reader never fails — for every registry behaviour
and every label it returns `.ok` of exactly the transform the spec's
lookup policy describes (so in particular never an error). -/
theorem charsetReader_total_follows_spec
    (reg : GoStr → Except GoStr (Option Decoder)) (charset : GoStr) :
    charsetReader reg charset = .ok (charsetTransformSpec reg charset) := by
  unfold charsetReader charsetTransformSpec
  dsimp only
  repeat' split <;> try rfl

/-- Sanity instances of C8. -/
example : charsetReader (fun _ => .error []) (strOf "KOI8-R") = .ok .koi8r := by rfl
example : charsetReader (fun _ => .error (strOf "boom")) (strOf "x-weird") =
    .ok .passThrough := by rfl
example : charsetReader (fun _ => .ok none) (strOf "x-weird") = .ok .passThrough := by rfl
example : charsetReader (fun _ => .ok (some (.iana (strOf "gbk")))) (strOf "GBK") =
    .ok (.iana (strOf "gbk")) := by rfl
example : charsetReader (fun _ => .error []) [] = .ok .passThrough := by rfl

/-! ## EPUB cover resolution (claim C6) -/

/-- A manifest `item` entry of the OPF package. -/
structure EpubManifestItem where
  id : GoStr
  href : GoStr
  mediaType : GoStr
  deriving DecidableEq, Repr

/-- The cover-candidate condition from `extractCoverHref`: id or href
contains "cover" case-insensitively and the media type is one of the three
image types. -/
def coverPred (it : EpubManifestItem) : Bool :=
  (containsSub (asciiLower it.id) (strOf "cover") ||
   containsSub (asciiLower it.href) (strOf "cover")) &&
  (it.mediaType = strOf "image/jpeg" || it.mediaType = strOf "image/png" ||
   it.mediaType = strOf "image/jpg")

/-- Embeds `extractCoverHref`: scan manifest items in declaration order,
return the joined path of the first item satisfying `coverPred`, empty if
none. `join` abstracts `filepath.Join baseDir ·`. -/
def extractCoverHref (join : GoStr → GoStr → GoStr) (baseDir : GoStr)
    (items : List EpubManifestItem) : GoStr :=
  match items with
  | [] => []
  | it :: rest =>
    if coverPred it then join baseDir it.href
    else extractCoverHref join baseDir rest

/-- Embeds the cover MIME-type choice of the EPUB metadata extraction:
`image/png` when the resolved href ends in `.png` case-insensitively, else
`image/jpeg`. -/
def epubCoverType (coverHref : GoStr) : GoStr :=
  if endsWith (asciiLower coverHref) (strOf ".png") then strOf "image/png"
  else strOf "image/jpeg"

/-- C6: cover resolution returns the *first* manifest item, in declaration
order, satisfying the name-contains-"cover" and allowed-media-type
conditions (so items before it all fail the condition), and the reported
MIME type is `image/png` exactly when that item's href ends in `.png`
case-insensitively (assuming path joining preserves the `.png` suffix
test, as `filepath.Join` does). -/
theorem extractCoverHref_first_match
    (join : GoStr → GoStr → GoStr) (baseDir : GoStr) (items : List EpubManifestItem)
    (hjoin : ∀ b h, endsWith (asciiLower (join b h)) (strOf ".png") =
      endsWith (asciiLower h) (strOf ".png")) :
    (extractCoverHref join baseDir items =
      match items.find? coverPred with
      | some it => join baseDir it.href
      | none => []) ∧
    (∀ l₁ it l₂, items = l₁ ++ it :: l₂ → coverPred it → (∀ x ∈ l₁, ¬ coverPred x) →
      extractCoverHref join baseDir items = join baseDir it.href) ∧
    (∀ it, items.find? coverPred = some it →
      epubCoverType (extractCoverHref join baseDir items) =
        (if endsWith (asciiLower it.href) (strOf ".png") then strOf "image/png"
         else strOf "image/jpeg")) := by
  have hmain : extractCoverHref join baseDir items =
      match items.find? coverPred with
      | some it => join baseDir it.href
      | none => [] := by
    induction items with
    | nil => rfl
    | cons it rest ih =>
      by_cases h : coverPred it = true
      · simp [extractCoverHref, List.find?_cons, h]
      · have h' : coverPred it = false := by simpa using h
        simp [extractCoverHref, List.find?_cons, h', ih]
  refine ⟨hmain, ?_, ?_⟩
  · intro l₁ it l₂ heq hit hpre
    subst heq
    rw [hmain]
    have : (l₁ ++ it :: l₂).find? coverPred = some it := by
      rw [List.find?_append]
      have h₁ : l₁.find? coverPred = none := by
        rw [List.find?_eq_none]
        intro x hx
        exact fun hc => hpre x hx hc
      rw [h₁]
      simp [List.find?, hit]
    rw [this]
  · intro it hfind
    rw [hmain, hfind]
    unfold epubCoverType
    rw [hjoin]

/-- Witness for C6 at a concrete manifest with two matching items: the
first declared match wins (not the last or the shortest), and the MIME
type follows its href suffix. -/
theorem extractCoverHref_first_match_witness :
    extractCoverHref (fun _ h => h) []
      [⟨strOf "c1", strOf "art/cover-big.png", strOf "image/png"⟩,
       ⟨strOf "c2", strOf "cover.jpg", strOf "image/jpeg"⟩] = strOf "art/cover-big.png" ∧
    epubCoverType (extractCoverHref (fun _ h => h) []
      [⟨strOf "c1", strOf "art/cover-big.png", strOf "image/png"⟩,
       ⟨strOf "c2", strOf "cover.jpg", strOf "image/jpeg"⟩]) = strOf "image/png" := by
  have h := extractCoverHref_first_match (fun _ h => h) []
    [⟨strOf "c1", strOf "art/cover-big.png", strOf "image/png"⟩,
     ⟨strOf "c2", strOf "cover.jpg", strOf "image/jpeg"⟩]
    (fun _ _ => rfl)
  refine ⟨?_, ?_⟩
  · exact h.2.1 [] ⟨strOf "c1", strOf "art/cover-big.png", strOf "image/png"⟩
      [⟨strOf "c2", strOf "cover.jpg", strOf "image/jpeg"⟩] rfl (by decide) (by simp)
  · have := h.2.2 ⟨strOf "c1", strOf "art/cover-big.png", strOf "image/png"⟩ (by decide)
    rw [this]
    decide

/-! ## FB2 sanitizer: unescaped-ampersand repair (claim C7)

Byte-level embedding of `fixUnescapedAmpersands` from
`src/formats/fb2/sanitize.go`. Bytes are `Nat` values. -/

/-- Go byte slices. -/
abbrev GoBytes := List Nat

/-- Byte sequence of an ASCII string literal. -/
def bytesOf (s : String) : GoBytes := s.data.map Char.toNat

/-- Boolean prefix test on byte lists. -/
def startsWithB (l p : GoBytes) : Bool := decide (p <+: l)

/-- ASCII decimal digit byte. -/
def isDigitByte (b : Nat) : Bool := 48 ≤ b && b ≤ 57

/-- ASCII hexadecimal digit byte (`[0-9a-fA-F]`). -/
def isHexByte (b : Nat) : Bool :=
  isDigitByte b || (97 ≤ b && b ≤ 102) || (65 ≤ b && b ≤ 70)

/-- Embeds the regex test `^&(amp|lt|gt|quot|apos);`. -/
def matchNamedEntity (l : GoBytes) : Bool :=
  startsWithB l (bytesOf "&amp;") || startsWithB l (bytesOf "&lt;") ||
  startsWithB l (bytesOf "&gt;") || startsWithB l (bytesOf "&quot;") ||
  startsWithB l (bytesOf "&apos;")

/-- Embeds the regex test `^&#[0-9]+;`: `&#`, a maximal nonempty digit
run, then `;`. -/
def matchDecEntity (l : GoBytes) : Bool :=
  match l with
  | 38 :: 35 :: rest =>
    decide (rest.takeWhile isDigitByte ≠ []) &&
      decide ((rest.dropWhile isDigitByte).head? = some 59)
  | _ => false

/-- Embeds the regex test `^&#x[0-9a-fA-F]+;`. -/
def matchHexEntity (l : GoBytes) : Bool :=
  match l with
  | 38 :: 35 :: 120 :: rest =>
    decide (rest.takeWhile isHexByte ≠ []) &&
      decide ((rest.dropWhile isHexByte).head? = some 59)
  | _ => false

/-- The byte suffix beginning at an `&` passes one of the three entity
regexes of `fixUnescapedAmpersands`. -/
def isGoEntityStart (l : GoBytes) : Bool :=
  matchNamedEntity l || matchDecEntity l || matchHexEntity l

/-- Embeds `fixUnescapedAmpersands`: every `&` beginning a valid entity is
kept, every other `&` becomes `&amp;`, all other bytes are copied. -/
def fixUnescapedAmpersands : GoBytes → GoBytes
  | [] => []
  | b :: rest =>
    if b = 38 then
      if isGoEntityStart (b :: rest) then 38 :: fixUnescapedAmpersands rest
      else bytesOf "&amp;" ++ fixUnescapedAmpersands rest
    else b :: fixUnescapedAmpersands rest

/-- Written from the spec's words (claim C7): the suffix starting at an
ampersand begins a *named* entity — one of `amp`, `lt`, `gt`, `quot`,
`apos` followed by `;`. -/
def namedEntityStartSpec (l : GoBytes) : Prop :=
  ∃ nm ∈ [bytesOf "amp", bytesOf "lt", bytesOf "gt", bytesOf "quot", bytesOf "apos"],
    (38 :: (nm ++ [59])) <+: l

/-- Written from the spec's words (claim C7): the suffix starting at an
ampersand begins a numeric entity — `&#` digits `;` or `&#x` hex digits
`;`. -/
def numericEntityStartSpec (l : GoBytes) : Prop :=
  (∃ ds : GoBytes, ds ≠ [] ∧ (∀ b ∈ ds, isDigitByte b = true) ∧
    (38 :: 35 :: (ds ++ [59])) <+: l) ∨
  (∃ hs : GoBytes, hs ≠ [] ∧ (∀ b ∈ hs, isHexByte b = true) ∧
    (38 :: 35 :: 120 :: (hs ++ [59])) <+: l)

/-- A maximal `p`-run followed by a non-`p` element determines the
`takeWhile`/`dropWhile` decomposition. -/
theorem takeWhile_of_run {p : Nat → Bool} {ds tail : GoBytes} {x : Nat}
    (hall : ∀ b ∈ ds, p b = true) (hx : p x = false) :
    (ds ++ x :: tail).takeWhile p = ds ∧ (ds ++ x :: tail).dropWhile p = x :: tail := by
  induction ds with
  | nil => simp [List.takeWhile, List.dropWhile, hx]
  | cons d ds ih =>
    have hd : p d = true := hall d (by simp)
    have hrest : ∀ b ∈ ds, p b = true := fun b hb => hall b (by simp [hb])
    have ih' := ih hrest
    simp [List.takeWhile, List.dropWhile, hd, ih'.1, ih'.2]

/-- The decimal-entity regex agrees with the spec's description. -/
theorem matchDecEntity_iff (l : GoBytes) :
    matchDecEntity l = true ↔
      ∃ ds : GoBytes, ds ≠ [] ∧ (∀ b ∈ ds, isDigitByte b = true) ∧
        (38 :: 35 :: (ds ++ [59])) <+: l := by
  constructor
  · intro h
    match l, h with
    | 38 :: 35 :: rest, h =>
      simp only [matchDecEntity, Bool.and_eq_true, decide_eq_true_eq] at h
      obtain ⟨hne, hhead⟩ := h
      obtain ⟨tail, htail⟩ : ∃ tail, rest.dropWhile isDigitByte = 59 :: tail := by
        cases hdw : rest.dropWhile isDigitByte with
        | nil => rw [hdw] at hhead; simp at hhead
        | cons a t =>
          rw [hdw] at hhead
          simp only [List.head?_cons, Option.some.injEq] at hhead
          exact ⟨t, by rw [hhead]⟩
      refine ⟨rest.takeWhile isDigitByte, hne,
        fun b hb => List.mem_takeWhile_imp hb, tail, ?_⟩
      have hr : rest = rest.takeWhile isDigitByte ++ 59 :: tail := by
        rw [← htail, List.takeWhile_append_dropWhile]
      rw [hr]
      simp only [List.cons_append, List.append_assoc, List.singleton_append,
        List.cons.injEq, true_and]
      exact congrArg (fun t => t ++ 59 :: tail)
        (takeWhile_of_run (fun b hb => List.mem_takeWhile_imp hb)
          (by decide : isDigitByte 59 = false)).1
  · rintro ⟨ds, hne, hall, tail, htail⟩
    subst htail
    have hgoal : (38 :: 35 :: (ds ++ [59])) ++ tail = 38 :: 35 :: (ds ++ 59 :: tail) := by
      simp
    rw [hgoal]
    have hrun : (ds ++ 59 :: tail).takeWhile isDigitByte = ds ∧
        (ds ++ 59 :: tail).dropWhile isDigitByte = 59 :: tail :=
      takeWhile_of_run hall (by decide)
    simp only [matchDecEntity, hrun.1, hrun.2, List.head?_cons]
    simp [hne]

/-- The hex-entity regex agrees with the spec's description. -/
theorem matchHexEntity_iff (l : GoBytes) :
    matchHexEntity l = true ↔
      ∃ hs : GoBytes, hs ≠ [] ∧ (∀ b ∈ hs, isHexByte b = true) ∧
        (38 :: 35 :: 120 :: (hs ++ [59])) <+: l := by
  constructor
  · intro h
    match l, h with
    | 38 :: 35 :: 120 :: rest, h =>
      simp only [matchHexEntity, Bool.and_eq_true, decide_eq_true_eq] at h
      obtain ⟨hne, hhead⟩ := h
      obtain ⟨tail, htail⟩ : ∃ tail, rest.dropWhile isHexByte = 59 :: tail := by
        cases hdw : rest.dropWhile isHexByte with
        | nil => rw [hdw] at hhead; simp at hhead
        | cons a t =>
          rw [hdw] at hhead
          simp only [List.head?_cons, Option.some.injEq] at hhead
          exact ⟨t, by rw [hhead]⟩
      refine ⟨rest.takeWhile isHexByte, hne,
        fun b hb => List.mem_takeWhile_imp hb, tail, ?_⟩
      have hr : rest = rest.takeWhile isHexByte ++ 59 :: tail := by
        rw [← htail, List.takeWhile_append_dropWhile]
      rw [hr]
      simp only [List.cons_append, List.append_assoc, List.singleton_append,
        List.cons.injEq, true_and]
      exact congrArg (fun t => t ++ 59 :: tail)
        (takeWhile_of_run (fun b hb => List.mem_takeWhile_imp hb)
          (by decide : isHexByte 59 = false)).1
  · rintro ⟨hs, hne, hall, tail, htail⟩
    subst htail
    have hgoal : (38 :: 35 :: 120 :: (hs ++ [59])) ++ tail =
        38 :: 35 :: 120 :: (hs ++ 59 :: tail) := by simp
    rw [hgoal]
    have hrun : (hs ++ 59 :: tail).takeWhile isHexByte = hs ∧
        (hs ++ 59 :: tail).dropWhile isHexByte = 59 :: tail :=
      takeWhile_of_run hall (by decide)
    simp only [matchHexEntity, hrun.1, hrun.2, List.head?_cons]
    simp [hne]

/-- The named-entity regex agrees with the spec's description. -/
theorem matchNamedEntity_iff (l : GoBytes) :
    matchNamedEntity l = true ↔ namedEntityStartSpec l := by
  unfold matchNamedEntity namedEntityStartSpec startsWithB
  simp only [Bool.or_eq_true, decide_eq_true_eq, List.mem_cons, List.mem_singleton,
    List.not_mem_nil]
  constructor
  · rintro ((((h | h) | h) | h) | h)
    · exact ⟨bytesOf "amp", by simp, h⟩
    · exact ⟨bytesOf "lt", by simp, h⟩
    · exact ⟨bytesOf "gt", by simp, h⟩
    · exact ⟨bytesOf "quot", by simp, h⟩
    · exact ⟨bytesOf "apos", by simp, h⟩
  · rintro ⟨nm, hnm, hpre⟩
    rcases hnm with h | h | h | h | h | h
    all_goals first
      | (subst h; simp only [bytesOf] at hpre ⊢; tauto)
      | cases h

/-- C7: in the ampersand-repair pass an `&` is left unchanged exactly when
it begins a named entity (`amp`, `lt`, `gt`, `quot`, `apos` plus `;`) or a
numeric entity (`#` digits `;` / `#x` hex digits `;`); every other `&`
becomes `&amp;`, and non-ampersand bytes are copied through unchanged. -/
theorem fixUnescapedAmpersands_spec :
    (∀ l : GoBytes,
      isGoEntityStart l = true ↔ (namedEntityStartSpec l ∨ numericEntityStartSpec l)) ∧
    (fixUnescapedAmpersands [] = []) ∧
    (∀ (b : Nat) (rest : GoBytes), b ≠ 38 →
      fixUnescapedAmpersands (b :: rest) = b :: fixUnescapedAmpersands rest) ∧
    (∀ rest : GoBytes, (namedEntityStartSpec (38 :: rest) ∨ numericEntityStartSpec (38 :: rest)) →
      fixUnescapedAmpersands (38 :: rest) = 38 :: fixUnescapedAmpersands rest) ∧
    (∀ rest : GoBytes, ¬ (namedEntityStartSpec (38 :: rest) ∨ numericEntityStartSpec (38 :: rest)) →
      fixUnescapedAmpersands (38 :: rest) = bytesOf "&amp;" ++ fixUnescapedAmpersands rest) := by
  have hiff : ∀ l : GoBytes,
      isGoEntityStart l = true ↔ (namedEntityStartSpec l ∨ numericEntityStartSpec l) := by
    intro l
    unfold isGoEntityStart numericEntityStartSpec
    simp only [Bool.or_eq_true, matchNamedEntity_iff, matchDecEntity_iff, matchHexEntity_iff]
    exact or_assoc
  refine ⟨hiff, rfl, ?_, ?_, ?_⟩
  · intro b rest hb
    simp [fixUnescapedAmpersands, hb]
  · intro rest h
    have : isGoEntityStart (38 :: rest) = true := (hiff _).mpr h
    simp [fixUnescapedAmpersands, this]
  · intro rest h
    have : isGoEntityStart (38 :: rest) = false := by
      rcases hb : isGoEntityStart (38 :: rest) with _ | _
      · rfl
      · exact absurd ((hiff _).mp hb) h
    simp [fixUnescapedAmpersands, this]

/-- Witness for C7: concrete behaviour on a byte string exercising every
branch — kept named entity, kept numeric entity, escaped bare ampersand,
copied ordinary bytes (`"a&lt;&#10;& b"` becomes `"a&lt;&#10;&amp; b"`). -/
theorem fixUnescapedAmpersands_spec_witness :
    fixUnescapedAmpersands (bytesOf "a&lt;&#10;& b") = bytesOf "a&lt;&#10;&amp; b" := by
  have h := fixUnescapedAmpersands_spec
  have h1 : fixUnescapedAmpersands (bytesOf "& b") =
      bytesOf "&amp;" ++ fixUnescapedAmpersands (bytesOf " b") := by
    refine h.2.2.2.2 (bytesOf " b") ?_
    intro hc
    have : isGoEntityStart (38 :: bytesOf " b") = true := (h.1 _).mpr hc
    exact absurd this (by decide)
  have h2 : fixUnescapedAmpersands (bytesOf "&#10;& b") =
      38 :: fixUnescapedAmpersands (bytesOf "#10;& b") := by
    refine h.2.2.2.1 (bytesOf "#10;& b") ?_
    exact (h.1 _).mp (by decide)
  have h3 : fixUnescapedAmpersands (bytesOf "&lt;&#10;& b") =
      38 :: fixUnescapedAmpersands (bytesOf "lt;&#10;& b") := by
    refine h.2.2.2.1 (bytesOf "lt;&#10;& b") ?_
    exact (h.1 _).mp (by decide)
  have h4 : fixUnescapedAmpersands (bytesOf "a&lt;&#10;& b") =
      97 :: fixUnescapedAmpersands (bytesOf "&lt;&#10;& b") := h.2.2.1 97 _ (by decide)
  rw [h4, h3]
  show _ = 97 :: 38 :: bytesOf "lt;&#10;&amp; b"
  norm_num [fixUnescapedAmpersands, bytesOf, isGoEntityStart, matchNamedEntity,
    matchDecEntity, matchHexEntity, startsWithB]
  decide

/-! ## Regex scanners

The source drives all markup handling through Go `regexp` patterns of a
few fixed shapes. Each shape is embedded as a deterministic scanner
below, implementing the leftmost, non-overlapping matching (with lazy
inner parts and greedy `[^>]*` parts) that the Go engine performs for
exactly these patterns. Case-insensitivity `(?i)` is modelled at ASCII
level, which the involved tag literals fall inside. -/

/-- Caseless (ASCII) test that `pat` is a prefix of `s`. -/
def caselessHasPre : GoStr → GoStr → Bool
  | [], _ => true
  | _ :: _, [] => false
  | p :: ps, c :: cs => (asciiLowerChar c = asciiLowerChar p) && caselessHasPre ps cs

/-- Leftmost caseless occurrence of `pat`: returns
`(before, matched, after)` with `s = before ++ matched ++ after` and
`matched` of `pat`'s length. -/
def splitAtCaseless (pat : GoStr) : GoStr → Option (GoStr × GoStr × GoStr)
  | [] => if caselessHasPre pat [] then some ([], [], []) else none
  | c :: rest =>
    if caselessHasPre pat (c :: rest) then
      some ([], (c :: rest).take pat.length, (c :: rest).drop pat.length)
    else
      match splitAtCaseless pat rest with
      | some (b, m, a) => some (c :: b, m, a)
      | none => none

/-- As `splitAtCaseless`, but refusing to skip a newline before the
match — the search a `.` without the `s` flag performs. -/
def splitAtCaselessNoNL (pat : GoStr) : GoStr → Option (GoStr × GoStr × GoStr)
  | [] => if caselessHasPre pat [] then some ([], [], []) else none
  | c :: rest =>
    if caselessHasPre pat (c :: rest) then
      some ([], (c :: rest).take pat.length, (c :: rest).drop pat.length)
    else if c = '\n' then none
    else
      match splitAtCaselessNoNL pat rest with
      | some (b, m, a) => some (c :: b, m, a)
      | none => none

theorem caselessHasPre_length {pat s : GoStr} (h : caselessHasPre pat s = true) :
    pat.length ≤ s.length := by
  induction pat generalizing s with
  | nil => simp
  | cons p ps ih =>
    cases s with
    | nil => simp [caselessHasPre] at h
    | cons c cs =>
      simp only [caselessHasPre, Bool.and_eq_true] at h
      simpa [Nat.succ_le_succ_iff] using ih h.2

theorem splitAtCaseless_eq {pat s b m a : GoStr}
    (h : splitAtCaseless pat s = some (b, m, a)) :
    s = b ++ m ++ a ∧ m.length = pat.length := by
  induction s generalizing b m a with
  | nil =>
    simp only [splitAtCaseless] at h
    split at h
    · rename_i hp
      simp only [Option.some.injEq, Prod.mk.injEq] at h
      obtain ⟨hb, hm, ha⟩ := h
      subst hb; subst hm; subst ha
      have hlen : pat.length = 0 := Nat.le_zero.mp (by simpa using caselessHasPre_length hp)
      exact ⟨by simp, by simp [hlen]⟩
    · cases h
  | cons c rest ih =>
    simp only [splitAtCaseless] at h
    split at h
    · rename_i hp
      simp only [Option.some.injEq, Prod.mk.injEq] at h
      obtain ⟨hb, hm, ha⟩ := h
      subst hb; subst hm; subst ha
      have hlen := caselessHasPre_length hp
      constructor
      · simp [List.take_append_drop]
      · rw [List.length_take]
        simp only [List.length_cons] at hlen ⊢
        omega
    · rename_i hp
      cases hrec : splitAtCaseless pat rest with
      | none => rw [hrec] at h; cases h
      | some triple =>
        obtain ⟨b', m', a'⟩ := triple
        rw [hrec] at h
        simp only [Option.some.injEq, Prod.mk.injEq] at h
        obtain ⟨hb, hm, ha⟩ := h
        subst hb; subst hm; subst ha
        have := ih hrec
        simp [this.1, this.2]

theorem splitAtCaselessNoNL_eq {pat s b m a : GoStr}
    (h : splitAtCaselessNoNL pat s = some (b, m, a)) :
    s = b ++ m ++ a ∧ m.length = pat.length := by
  induction s generalizing b m a with
  | nil =>
    simp only [splitAtCaselessNoNL] at h
    split at h
    · rename_i hp
      simp only [Option.some.injEq, Prod.mk.injEq] at h
      obtain ⟨hb, hm, ha⟩ := h
      subst hb; subst hm; subst ha
      have hlen : pat.length = 0 := Nat.le_zero.mp (by simpa using caselessHasPre_length hp)
      exact ⟨by simp, by simp [hlen]⟩
    · cases h
  | cons c rest ih =>
    simp only [splitAtCaselessNoNL] at h
    split at h
    · rename_i hp
      simp only [Option.some.injEq, Prod.mk.injEq] at h
      obtain ⟨hb, hm, ha⟩ := h
      subst hb; subst hm; subst ha
      have hlen := caselessHasPre_length hp
      constructor
      · simp [List.take_append_drop]
      · rw [List.length_take]
        simp only [List.length_cons] at hlen ⊢
        omega
    · split at h
      · cases h
      · cases hrec : splitAtCaselessNoNL pat rest with
        | none => rw [hrec] at h; cases h
        | some triple =>
          obtain ⟨b', m', a'⟩ := triple
          rw [hrec] at h
          simp only [Option.some.injEq, Prod.mk.injEq] at h
          obtain ⟨hb, hm, ha⟩ := h
          subst hb; subst hm; subst ha
          have := ih hrec
          simp [this.1, this.2]

/-- Open-tag matcher `(?i)<TAG[^>]*>` anchored at the head of `s`:
returns the raw matched open tag and the remainder. -/
def tryOpenAt (tag : GoStr) (s : GoStr) : Option (GoStr × GoStr) :=
  match s with
  | [] => none
  | c :: rest =>
    if c = '<' && caselessHasPre tag rest then
      let rest₂ := rest.drop tag.length
      let attrs := rest₂.takeWhile (fun x => x ≠ '>')
      match rest₂.dropWhile (fun x => x ≠ '>') with
      | [] => none
      | g :: rest₃ => if g = '>' then some ('<' :: (rest.take tag.length ++ attrs ++ ['>']), rest₃) else none
    else none

theorem tryOpenAt_eq {tag s o r : GoStr} (h : tryOpenAt tag s = some (o, r)) :
    s = o ++ r ∧ o ≠ [] := by
  cases s with
  | nil => cases h
  | cons c rest =>
    simp only [tryOpenAt] at h
    split at h
    · rename_i hp
      simp only [Bool.and_eq_true, decide_eq_true_eq] at hp
      obtain ⟨hc, hpre⟩ := hp
      subst hc
      split at h
      · cases h
      · rename_i g rest₃ hdw
        split at h
        · rename_i hg
          subst hg
          simp only [Option.some.injEq, Prod.mk.injEq] at h
          obtain ⟨ho, hr⟩ := h
          subst ho; subst hr
          refine ⟨?_, by simp⟩
          have hsplit : rest.drop tag.length =
              (rest.drop tag.length).takeWhile (fun x => x ≠ '>') ++
              (rest.drop tag.length).dropWhile (fun x => x ≠ '>') :=
            (List.takeWhile_append_dropWhile _ _).symm
          simp only [List.cons_append, List.cons.injEq, true_and, List.append_assoc]
          conv_lhs => rw [← List.take_append_drop tag.length rest, hsplit, hdw]
          simp
        · cases h
    · cases h

/-- Raw pieces of one `(?i)<TAG[^>]*>.*?</TAG>` match. -/
structure TagMatch where
  openRaw : GoStr
  inner : GoStr
  closeRaw : GoStr
  deriving DecidableEq, Repr

/-- The whole matched text (Go's `match[0]`). -/
def TagMatch.full (m : TagMatch) : GoStr := m.openRaw ++ m.inner ++ m.closeRaw

/-- Block matcher `(?i s?)<TAG[^>]*>.*?</TAG>` anchored at the head of
`s`; `dotAll` selects whether the lazy inner part may cross newlines. -/
def tryBlockAt (tag : GoStr) (dotAll : Bool) (s : GoStr) : Option (TagMatch × GoStr) :=
  match tryOpenAt tag s with
  | some (openRaw, rest) =>
    let closePat : GoStr := '<' :: '/' :: (tag ++ ['>'])
    match (if dotAll then splitAtCaseless closePat rest
           else splitAtCaselessNoNL closePat rest) with
    | some (inner, closeRaw, after) => some (⟨openRaw, inner, closeRaw⟩, after)
    | none => none
  | none => none

theorem tryBlockAt_eq {tag : GoStr} {dotAll : Bool} {s : GoStr} {m : TagMatch} {r : GoStr}
    (h : tryBlockAt tag dotAll s = some (m, r)) :
    s = m.full ++ r ∧ m.full ≠ [] := by
  unfold tryBlockAt at h
  cases hopen : tryOpenAt tag s with
  | none => rw [hopen] at h; cases h
  | some pr =>
    obtain ⟨openRaw, rest⟩ := pr
    rw [hopen] at h
    simp only at h
    have hoe := tryOpenAt_eq hopen
    cases hsp : (if dotAll then splitAtCaseless ('<' :: '/' :: (tag ++ ['>'])) rest
                 else splitAtCaselessNoNL ('<' :: '/' :: (tag ++ ['>'])) rest) with
    | none => rw [hsp] at h; cases h
    | some triple =>
      obtain ⟨inner, closeRaw, after⟩ := triple
      rw [hsp] at h
      simp only [Option.some.injEq, Prod.mk.injEq] at h
      obtain ⟨hm, hr⟩ := h
      subst hm; subst hr
      have hse : rest = inner ++ closeRaw ++ after ∧
          closeRaw.length = ('<' :: '/' :: (tag ++ ['>'])).length := by
        cases dotAll with
        | true => exact splitAtCaseless_eq (by simpa using hsp)
        | false => exact splitAtCaselessNoNL_eq (by simpa using hsp)
      refine ⟨?_, ?_⟩
      · rw [hoe.1, hse.1]
        unfold TagMatch.full
        simp
      · intro hfull
        apply hoe.2
        unfold TagMatch.full at hfull
        simp only [List.append_assoc, List.append_eq_nil] at hfull
        exact hfull.1

theorem tryBlockAt_shorter {tag : GoStr} {dotAll : Bool} {s : GoStr} {m : TagMatch} {r : GoStr}
    (h : tryBlockAt tag dotAll s = some (m, r)) : r.length < s.length := by
  obtain ⟨heq, hne⟩ := tryBlockAt_eq h
  rw [heq]
  simp only [List.length_append]
  have : 0 < m.full.length := List.length_pos.mpr hne
  omega

theorem tryOpenAt_shorter {tag s o r : GoStr} (h : tryOpenAt tag s = some (o, r)) :
    r.length < s.length := by
  obtain ⟨heq, hne⟩ := tryOpenAt_eq h
  rw [heq]
  simp only [List.length_append]
  have : 0 < o.length := List.length_pos.mpr hne
  omega

theorem length_dropWhile_le (p : Char → Bool) (l : GoStr) :
    (l.dropWhile p).length ≤ l.length :=
  (List.dropWhile_suffix p).sublist.length_le


/-! Each scanner below consumes at least one character per step, so
recursion on a fuel initialised to the input length is structurally
total and never exhausts the fuel before the input; the `*_shorter`
lemmas above justify the fuel bounds. Keeping the recursion structural
(rather than well-founded) keeps all definitions kernel-reducible, so
concrete runs can be settled by `decide`. -/

/-- All matches of `(?i s?)<TAG[^>]*>.*?</TAG>`, leftmost and
non-overlapping (Go `FindAllStringSubmatch`); fuelled worker. -/
def scanBlocksF (tag : GoStr) (dotAll : Bool) : Nat → GoStr → List TagMatch
  | _, [] => []
  | 0, _ => []
  | fuel + 1, c :: rest =>
    match tryBlockAt tag dotAll (c :: rest) with
    | some (m, after) => m :: scanBlocksF tag dotAll fuel after
    | none => scanBlocksF tag dotAll fuel rest

/-- All matches of `(?i s?)<TAG[^>]*>.*?</TAG>` in `s`. -/
def scanBlocks (tag : GoStr) (dotAll : Bool) (s : GoStr) : List TagMatch :=
  scanBlocksF tag dotAll s.length s

/-- Replace every `(?i s?)<TAG[^>]*>.*?</TAG>` match by `repl`; fuelled
worker. -/
def replaceBlocksF (tag : GoStr) (dotAll : Bool) (repl : GoStr) : Nat → GoStr → GoStr
  | _, [] => []
  | 0, s => s
  | fuel + 1, c :: rest =>
    match tryBlockAt tag dotAll (c :: rest) with
    | some (_, after) => repl ++ replaceBlocksF tag dotAll repl fuel after
    | none => c :: replaceBlocksF tag dotAll repl fuel rest

/-- Replace every `(?i s?)<TAG[^>]*>.*?</TAG>` match by `repl`
(Go `ReplaceAllString`). -/
def replaceBlocks (tag : GoStr) (dotAll : Bool) (repl : GoStr) (s : GoStr) : GoStr :=
  replaceBlocksF tag dotAll repl s.length s

/-- Replace every `(?i)<TAG[^>]*>` match by `repl`; fuelled worker. -/
def replaceOpenTagsF (tag : GoStr) (repl : GoStr) : Nat → GoStr → GoStr
  | _, [] => []
  | 0, s => s
  | fuel + 1, c :: rest =>
    match tryOpenAt tag (c :: rest) with
    | some (_, after) => repl ++ replaceOpenTagsF tag repl fuel after
    | none => c :: replaceOpenTagsF tag repl fuel rest

/-- Replace every `(?i)<TAG[^>]*>` match by `repl`. -/
def replaceOpenTags (tag : GoStr) (repl : GoStr) (s : GoStr) : GoStr :=
  replaceOpenTagsF tag repl s.length s

/-- Replace every caseless occurrence of the literal `pat` by `repl`;
fuelled worker. -/
def replaceLiteralCaselessF (pat : GoStr) (repl : GoStr) : Nat → GoStr → GoStr
  | _, [] => []
  | 0, s => s
  | fuel + 1, c :: rest =>
    if pat ≠ [] ∧ caselessHasPre pat (c :: rest) = true then
      repl ++ replaceLiteralCaselessF pat repl fuel ((c :: rest).drop pat.length)
    else c :: replaceLiteralCaselessF pat repl fuel rest

/-- Replace every caseless occurrence of the literal `pat` by `repl`
(the `(?i)</p>`-style patterns). -/
def replaceLiteralCaseless (pat : GoStr) (repl : GoStr) (s : GoStr) : GoStr :=
  replaceLiteralCaselessF pat repl s.length s

/-- The Go regexp `\s` class. -/
def isRegexSpaceChar (c : Char) : Bool :=
  c = Char.ofNat 9 || c = Char.ofNat 10 || c = Char.ofNat 12 ||
  c = Char.ofNat 13 || c = ' '

/-- Matcher for `(?i)<empty-line\s*/?>` anchored at the head of `s`:
the literal tag name, optional whitespace, an optional `/`, then `>`.
Returns the remainder after the match. -/
def tryEmptyLineAt (s : GoStr) : Option GoStr :=
  if caselessHasPre (strOf "<empty-line") s then
    match (s.drop 11).dropWhile isRegexSpaceChar with
    | [] => none
    | a :: r₂ =>
      if a = '>' then some r₂
      else if a = '/' then
        match r₂ with
        | [] => none
        | b :: r₃ => if b = '>' then some r₃ else none
      else none
  else none

theorem tryEmptyLineAt_shorter {s rest : GoStr} (h : tryEmptyLineAt s = some rest) :
    rest.length < s.length := by
  unfold tryEmptyLineAt at h
  split at h
  · rename_i hp
    have hs : 11 ≤ s.length := by
      have := caselessHasPre_length hp
      simpa [strOf] using this
    have hdw : ((s.drop 11).dropWhile isRegexSpaceChar).length ≤ s.length - 11 := by
      have h1 := length_dropWhile_le isRegexSpaceChar (s.drop 11)
      simpa using h1
    split at h
    · cases h
    · rename_i a r₂ hr
      have hr₂ : r₂.length + 1 ≤ s.length - 11 := by
        rw [hr] at hdw
        simpa using hdw
      split at h
      · simp only [Option.some.injEq] at h
        subst h
        omega
      · split at h
        · cases hc : r₂ with
          | nil => rw [hc] at h; cases h
          | cons b r₃ =>
            rw [hc] at h
            dsimp only at h
            split at h
            · simp only [Option.some.injEq] at h
              subst h
              rw [hc] at hr₂
              simp only [List.length_cons] at hr₂
              omega
            · cases h
        · cases h
  · cases h

/-- Replace every `(?i)<empty-line\s*/?>` match by `repl`; fuelled
worker. -/
def replaceEmptyLinesF (repl : GoStr) : Nat → GoStr → GoStr
  | _, [] => []
  | 0, s => s
  | fuel + 1, c :: rest =>
    match tryEmptyLineAt (c :: rest) with
    | some after => repl ++ replaceEmptyLinesF repl fuel after
    | none => c :: replaceEmptyLinesF repl fuel rest

/-- Replace every `(?i)<empty-line\s*/?>` match by `repl`. -/
def replaceEmptyLines (repl : GoStr) (s : GoStr) : GoStr :=
  replaceEmptyLinesF repl s.length s

/-- Remove every `<[^>]+>` match; fuelled worker. -/
def removeAllTagsF : Nat → GoStr → GoStr
  | _, [] => []
  | 0, s => s
  | fuel + 1, c :: rest =>
    if c = '<' then
      match rest.dropWhile (fun x => x ≠ '>') with
      | _ :: after =>
        if rest.takeWhile (fun x => x ≠ '>') ≠ [] then removeAllTagsF fuel after
        else c :: removeAllTagsF fuel rest
      | [] => c :: removeAllTagsF fuel rest
    else c :: removeAllTagsF fuel rest

/-- Remove every `<[^>]+>` match (the final tag-stripping pass of the
FB2 text conversion). -/
def removeAllTags (s : GoStr) : GoStr := removeAllTagsF s.length s

/-- Collapse every `[ \t]+` run to one space; fuelled worker. -/
def collapseSpacesF : Nat → GoStr → GoStr
  | _, [] => []
  | 0, s => s
  | fuel + 1, c :: rest =>
    if c = ' ' ∨ c = '\t' then
      ' ' :: collapseSpacesF fuel (rest.dropWhile (fun x => decide (x = ' ' ∨ x = '\t')))
    else c :: collapseSpacesF fuel rest

/-- Collapse every `[ \t]+` run to one space. -/
def collapseSpaces (s : GoStr) : GoStr := collapseSpacesF s.length s

/-- Collapse every `\n{2,}` run to one newline (a single newline is left
alone); fuelled worker. -/
def collapseNewlinesF : Nat → GoStr → GoStr
  | _, [] => []
  | 0, s => s
  | fuel + 1, c :: rest =>
    if c = '\n' ∧ rest.head? = some '\n' then
      '\n' :: collapseNewlinesF fuel (rest.dropWhile (fun x => decide (x = '\n')))
    else c :: collapseNewlinesF fuel rest

/-- Collapse every `\n{2,}` run to one newline. -/
def collapseNewlines (s : GoStr) : GoStr := collapseNewlinesF s.length s

/-- One fixpoint pass of nested-`<section>` stripping:
`(?is)<section[^>]*>.*?</section>` replaced by nothing, repeated until it
changes nothing; fuelled worker (each productive pass strictly shortens
the string, so `length + 1` passes reach the fixpoint). -/
def stripSectionsF : Nat → GoStr → GoStr
  | 0, s => s
  | fuel + 1, s =>
    let t := replaceBlocks (strOf "section") true [] s
    if t = s then s else stripSectionsF fuel t

/-- The `for` loop of `fb2XMLToText` removing nested `<section>` blocks
until a fixpoint. -/
def stripNestedSections (s : GoStr) : GoStr := stripSectionsF (s.length + 1) s

/-- Boolean prefix test on rune lists. -/
def startsWithStr (s pat : GoStr) : Bool := decide (pat <+: s)

/-- Models the external `html.UnescapeString` restricted to the five
basic XML entities — the fragment exercised by the concrete inputs of
the closed theorems below. The universal theorems quantify over the
unescape function instead of fixing this one. -/
def unescapeBasicF : Nat → GoStr → GoStr
  | _, [] => []
  | 0, s => s
  | fuel + 1, c :: rest =>
    if c = '&' then
      if startsWithStr rest (strOf "amp;") then '&' :: unescapeBasicF fuel (rest.drop 4)
      else if startsWithStr rest (strOf "lt;") then '<' :: unescapeBasicF fuel (rest.drop 3)
      else if startsWithStr rest (strOf "gt;") then '>' :: unescapeBasicF fuel (rest.drop 3)
      else if startsWithStr rest (strOf "quot;") then
        Char.ofNat 34 :: unescapeBasicF fuel (rest.drop 5)
      else if startsWithStr rest (strOf "apos;") then
        Char.ofNat 39 :: unescapeBasicF fuel (rest.drop 5)
      else c :: unescapeBasicF fuel rest
    else c :: unescapeBasicF fuel rest

/-- See `unescapeBasicF`. -/
def unescapeBasic (s : GoStr) : GoStr := unescapeBasicF s.length s

/-- The non-breaking space rune. -/
def nbspChar : Char := Char.ofNat 0xA0

/-- Embeds `fb2XMLToText` from the FB2 parser: strip nested sections,
replace tables/images/empty-lines, drop links, turn paragraph and title
tags into newlines, strip remaining tags, decode entities (`u` abstracts
`html.UnescapeString`), normalise whitespace and trim. -/
def fb2XMLToText (u : GoStr → GoStr) (xmlContent : GoStr) : GoStr :=
  if xmlContent = [] then []
  else
    let t := stripNestedSections xmlContent
    let t := replaceBlocks (strOf "table") false (strOf "\n[Table]\n") t
    let t := replaceOpenTags (strOf "image") (strOf "\n[Image]\n") t
    let t := replaceEmptyLines (strOf "\n") t
    let t := replaceBlocks (strOf "a") true [] t
    let t := replaceLiteralCaseless (strOf "</p>") (strOf "\n") t
    let t := replaceOpenTags (strOf "p") [] t
    let t := replaceLiteralCaseless (strOf "</title>") (strOf "\n") t
    let t := replaceOpenTags (strOf "title") (strOf "\n") t
    let t := replaceLiteralCaseless (strOf "</subtitle>") (strOf "\n") t
    let t := replaceOpenTags (strOf "subtitle") (strOf "\n") t
    let t := removeAllTags t
    let t := u t
    let t := t.map (fun c => if c = nbspChar then ' ' else c)
    let t := collapseSpaces t
    let t := collapseNewlines t
    goTrimSpace t

/-- Sanity instances for the FB2 text conversion. -/
example : fb2XMLToText unescapeBasic (strOf "A &amp; B") = strOf "A & B" := by decide
example : fb2XMLToText unescapeBasic (strOf "<p>Hello   world.</p>") =
    strOf "Hello world." := by decide
example : fb2XMLToText unescapeBasic
    (strOf "x<section a=1>inner</section>y<a href=z>link</a>!") = strOf "xy!" := by decide
example : fb2XMLToText unescapeBasic (strOf "<table><tr>c</tr></table>") =
    strOf "[Table]" := by decide
example : fb2XMLToText unescapeBasic (strOf "a<empty-line/>b<image href=i/>c") =
    strOf "a\nb\n[Image]\nc" := by decide

/-! ## Document model (package `parser`) -/

/-- `parser.Paragraph`: text plus optionally retained original markup. -/
structure Paragraph where
  Text : GoStr
  HTML : GoStr
  deriving DecidableEq, Repr

/-- The closed `parser.Element` variant set. -/
inductive Element where
  | paragraph (p : Paragraph)
  | heading (Text : GoStr) (Level : Nat)
  | image (Alt Href : GoStr) (Data : GoBytes)
  | table (Caption : GoStr)
  | emptyLine
  | epigraph (Paragraphs : List Paragraph)
  deriving DecidableEq, Repr

/-- `parser.Chapter`. -/
structure Chapter where
  ID : GoStr
  Title : GoStr
  Level : Nat
  Elements : List Element
  deriving DecidableEq, Repr

/-- `parser.Content`. -/
structure Content where
  Chapters : List Chapter
  deriving DecidableEq, Repr

/-! ## FB2 section flattening (claims C1, C3) -/

/-- `fb2Section`: title inner-XML, direct paragraph inner-XMLs, epigraph
paragraph inner-XMLs, nested sections. -/
inductive Fb2Section where
  | mk (title : GoStr) (paragraphs : List GoStr) (epigraphs : List (List GoStr))
      (sections : List Fb2Section)

/-- Title inner-XML of a section. -/
def Fb2Section.title : Fb2Section → GoStr
  | .mk t _ _ _ => t

/-- Direct paragraph inner-XMLs of a section. -/
def Fb2Section.paragraphs : Fb2Section → List GoStr
  | .mk _ p _ _ => p

/-- Epigraphs of a section, each a list of paragraph inner-XMLs. -/
def Fb2Section.epigraphs : Fb2Section → List (List GoStr)
  | .mk _ _ e _ => e

/-- Nested sections. -/
def Fb2Section.sections : Fb2Section → List Fb2Section
  | .mk _ _ _ s => s

/-- The epigraph-paragraph conversion inside `sectionToElements`: each
paragraph whose converted text is non-blank is kept, with trimmed text
and raw inner markup. -/
def epigraphParagraphs (u : GoStr → GoStr) (ps : List GoStr) : List Paragraph :=
  ps.filterMap (fun c =>
    let text := fb2XMLToText u c
    if goTrimSpace text ≠ [] then some ⟨goTrimSpace text, c⟩ else none)

/-- Embeds `sectionToElements`: heading from a non-blank title (level 2),
then epigraphs with non-blank paragraphs, then direct non-blank
paragraphs. -/
def sectionToElements (u : GoStr → GoStr) (s : Fb2Section) : List Element :=
  (if s.title ≠ [] ∧ goTrimSpace (fb2XMLToText u s.title) ≠ [] then
    [Element.heading (goTrimSpace (fb2XMLToText u s.title)) 2]
   else []) ++
  s.epigraphs.filterMap (fun e =>
    let eps := epigraphParagraphs u e
    if eps ≠ [] then some (Element.epigraph eps) else none) ++
  s.paragraphs.filterMap (fun c =>
    let text := fb2XMLToText u c
    if goTrimSpace text ≠ [] then some (Element.paragraph ⟨goTrimSpace text, c⟩) else none)

mutual

/-- Embeds `addSections`: depth-first flattening of a section tree into
chapters. Depth increments on entry; a branch whose depth exceeds
`maxDepth` is pruned entirely. A chapter is emitted when the section has
elements or no nested subsections; children are visited regardless.
Returns the emitted chapters and the updated shared chapter counter. -/
def addSections (maxDepth : Nat) (u : GoStr → GoStr) (s : Fb2Section)
    (depth : Nat) (chapterNum : Nat) : List Chapter × Nat :=
  if maxDepth < depth + 1 then ([], chapterNum)
  else
    match s with
    | .mk title paras epis secs =>
      let title0 := fb2XMLToText u title
      let titleStr := if title0 = [] then
          strOf "Chapter " ++ (Nat.repr chapterNum).data
        else title0
      let elements := sectionToElements u (.mk title paras epis secs)
      let selfPart : List Chapter × Nat :=
        if elements ≠ [] ∨ secs.isEmpty = true then
          ([{ ID := strOf "section-" ++ (Nat.repr chapterNum).data,
              Title := goTrimSpace titleStr,
              Level := depth + 1 - 1,
              Elements := elements }], chapterNum + 1)
        else ([], chapterNum)
      let rest := addSectionsList maxDepth u secs (depth + 1) selfPart.2
      (selfPart.1 ++ rest.1, rest.2)

/-- The `for` loop over nested sections in `addSections`. -/
def addSectionsList (maxDepth : Nat) (u : GoStr → GoStr) (ss : List Fb2Section)
    (depth : Nat) (chapterNum : Nat) : List Chapter × Nat :=
  match ss with
  | [] => ([], chapterNum)
  | s :: rest =>
    let r₁ := addSections maxDepth u s depth chapterNum
    let r₂ := addSectionsList maxDepth u rest depth r₁.2
    (r₁.1 ++ r₂.1, r₂.2)

end

/-- Sanity instance: a single section with one paragraph becomes one
level-0 chapter holding that paragraph. -/
example :
    addSections 3 unescapeBasic (.mk (strOf "T") [strOf "Hello world."] [] []) 0 1 =
      ([{ ID := strOf "section-1", Title := strOf "T", Level := 0,
          Elements := [Element.heading (strOf "T") 2,
            Element.paragraph ⟨strOf "Hello world.", strOf "Hello world."⟩] }], 2) := by
  decide

/-- Sanity instance: at depth 3 (section would sit at depth 4) the whole
branch is pruned. -/
example :
    addSections 3 unescapeBasic (.mk (strOf "T") [strOf "x"] [] []) 3 1 = ([], 1) := by
  decide

/-- C3: FB2 flattening with the default maximum depth 3. A section
entered at depth 4 or deeper (`3 ≤ depth` before the increment on entry)
is pruned entirely — neither it nor any descendant contributes a chapter
and the shared counter is untouched; a section within the limit is
flattened depth-first: itself (when it has elements or no subsections),
then its children in order at the incremented depth. -/
theorem addSections_depth_pruning :
    (∀ (u : GoStr → GoStr) (s : Fb2Section) (depth num : Nat), 3 ≤ depth →
      addSections 3 u s depth num = ([], num)) ∧
    (∀ (u : GoStr → GoStr) (title : GoStr) (paras : List GoStr)
        (epis : List (List GoStr)) (secs : List Fb2Section) (depth num : Nat), depth < 3 →
      addSections 3 u (.mk title paras epis secs) depth num =
        (let elements := sectionToElements u (.mk title paras epis secs)
         let titleStr := if fb2XMLToText u title = [] then
             strOf "Chapter " ++ (Nat.repr num).data
           else fb2XMLToText u title
         let selfPart : List Chapter × Nat :=
           if elements ≠ [] ∨ secs.isEmpty = true then
             ([{ ID := strOf "section-" ++ (Nat.repr num).data,
                 Title := goTrimSpace titleStr, Level := depth,
                 Elements := elements }], num + 1)
           else ([], num)
         let rest := addSectionsList 3 u secs (depth + 1) selfPart.2
         (selfPart.1 ++ rest.1, rest.2))) ∧
    (∀ (u : GoStr → GoStr) (s : Fb2Section) (ss : List Fb2Section) (depth num : Nat),
      addSectionsList 3 u (s :: ss) depth num =
        (let r₁ := addSections 3 u s depth num
         let r₂ := addSectionsList 3 u ss depth r₁.2
         (r₁.1 ++ r₂.1, r₂.2))) := by
  refine ⟨?_, ?_, ?_⟩
  · intro u s depth num h
    obtain ⟨title, paras, epis, secs⟩ := s
    rw [addSections]
    rw [if_pos (by omega)]
  · intro u title paras epis secs depth num h
    rw [addSections]
    rw [if_neg (by omega)]
    simp only [Nat.add_sub_cancel]
  · intro u s ss depth num
    rw [addSectionsList]

/-- Witness for C3: a section handed in at depth 3 (so sitting at depth
4) produces nothing and leaves the counter alone, while the same section
at depth 0 yields its chapter. -/
theorem addSections_depth_pruning_witness :
    addSections 3 unescapeBasic
      (.mk (strOf "Deep") [strOf "x"] [] [.mk (strOf "Deeper") [strOf "y"] [] []]) 3 5 =
        ([], 5) ∧
    addSections 3 unescapeBasic (.mk (strOf "Deep") [strOf "x"] [] []) 0 5 =
      ([{ ID := strOf "section-5", Title := strOf "Deep", Level := 0,
          Elements := [Element.heading (strOf "Deep") 2,
            Element.paragraph ⟨strOf "x", strOf "x"⟩] }], 6) := by
  constructor
  · exact addSections_depth_pruning.1 unescapeBasic _ 3 5 (by decide)
  · rw [addSections_depth_pruning.2.1 unescapeBasic (strOf "Deep") [strOf "x"] [] [] 0 5
      (by decide)]
    decide

/-! ## EPUB markup extraction (claims C1, C4, C9) -/

/-- Embeds `stripHTMLTags`'s scan state: inside a tag after an unmatched
`<`. -/
def stripHTMLTagsAux (inTag : Bool) : GoStr → GoStr
  | [] => []
  | c :: rest =>
    if c = '<' then stripHTMLTagsAux true rest
    else if c = '>' then stripHTMLTagsAux false rest
    else if inTag then stripHTMLTagsAux true rest
    else c :: stripHTMLTagsAux false rest

/-- Embeds `stripHTMLTags`: drop everything between `<` and `>`
(and the brackets themselves). -/
def stripHTMLTags (s : GoStr) : GoStr := stripHTMLTagsAux false s

/-- The scan state after processing `s` from state `b`. -/
def stripState (b : Bool) : GoStr → Bool
  | [] => b
  | c :: rest => stripState (if c = '<' then true else if c = '>' then false else b) rest

theorem stripHTMLTagsAux_append (b : Bool) (xs ys : GoStr) :
    stripHTMLTagsAux b (xs ++ ys) =
      stripHTMLTagsAux b xs ++ stripHTMLTagsAux (stripState b xs) ys := by
  induction xs generalizing b with
  | nil => simp [stripHTMLTagsAux, stripState]
  | cons c rest ih =>
    by_cases h1 : c = '<'
    · simp [stripHTMLTagsAux, stripState, h1, ih]
    · by_cases h2 : c = '>'
      · simp [stripHTMLTagsAux, stripState, h1, h2, ih]
      · cases b with
        | true => simp [stripHTMLTagsAux, stripState, h1, h2, ih]
        | false => simp [stripHTMLTagsAux, stripState, h1, h2, ih]

/-- Processing a complete `<...>` bracket group containing no stray `>`
emits nothing and resets the state. -/
theorem stripHTMLTagsAux_tagstep (b : Bool) (mid rest : GoStr) (hmid : '>' ∉ mid) :
    stripHTMLTagsAux b ('<' :: (mid ++ '>' :: rest)) = stripHTMLTagsAux false rest := by
  have step : ∀ (m : GoStr), '>' ∉ m →
      stripHTMLTagsAux true (m ++ '>' :: rest) = stripHTMLTagsAux false rest := by
    intro m hm
    induction m with
    | nil => simp [stripHTMLTagsAux]
    | cons x xs ih =>
      have hx : x ≠ '>' := fun hc => hm (by simp [hc])
      have hxs : '>' ∉ xs := fun hc => hm (by simp [hc])
      by_cases hlt : x = '<'
      · simpa [stripHTMLTagsAux, hlt, hx] using ih hxs
      · simpa [stripHTMLTagsAux, hlt, hx] using ih hxs
  calc stripHTMLTagsAux b ('<' :: (mid ++ '>' :: rest))
      = stripHTMLTagsAux true (mid ++ '>' :: rest) := by simp [stripHTMLTagsAux]
    _ = stripHTMLTagsAux false rest := step mid hmid

theorem ofNatAux_toNat (n : Nat) (h : n.isValidChar) : (Char.ofNatAux n h).toNat = n := rfl

theorem charToNat_inj {a b : Char} (h : a.toNat = b.toNat) : a = b := by
  have := Char.ofNat_toNat a
  rw [← this, h, Char.ofNat_toNat]

theorem asciiLowerChar_toNat (c : Char) :
    (asciiLowerChar c).toNat =
      if 65 ≤ c.toNat ∧ c.toNat ≤ 90 then c.toNat + 32 else c.toNat := by
  unfold asciiLowerChar
  have hle : ('A' ≤ c && c ≤ 'Z') = true ↔ 65 ≤ c.toNat ∧ c.toNat ≤ 90 := by
    constructor
    · intro h
      simp only [Bool.and_eq_true, decide_eq_true_eq] at h
      exact ⟨h.1, h.2⟩
    · intro h
      simp only [Bool.and_eq_true, decide_eq_true_eq]
      exact ⟨h.1, h.2⟩
  by_cases h : 65 ≤ c.toNat ∧ c.toNat ≤ 90
  · rw [if_pos (hle.mpr h), if_pos h]
    have hv : (c.toNat + 32).isValidChar := by
      left
      omega
    rw [Char.ofNat, dif_pos hv, ofNatAux_toNat]
  · rw [if_neg (fun hc => h (hle.mp hc)), if_neg h]

/-- For a target character outside the lowercase-image range,
ASCII lowercasing reflects equality. -/
theorem asciiLowerChar_eq_low {c d : Char} (hd : d.toNat < 97) (hd2 : ¬ (65 ≤ d.toNat ∧ d.toNat ≤ 90)) :
    asciiLowerChar c = d ↔ c = d := by
  constructor
  · intro h
    have ht := asciiLowerChar_toNat c
    rw [h] at ht
    by_cases hc : 65 ≤ c.toNat ∧ c.toNat ≤ 90
    · rw [if_pos hc] at ht
      omega
    · rw [if_neg hc] at ht
      exact charToNat_inj ht.symm
  · intro h
    subst h
    have ht := asciiLowerChar_toNat c
    rw [if_neg hd2] at ht
    exact charToNat_inj ht

/-- Pointwise caseless correspondence between a pattern and a matched
run of the same length. -/
def caselessZip : GoStr → GoStr → Prop
  | [], [] => True
  | p :: ps, c :: cs => asciiLowerChar c = asciiLowerChar p ∧ caselessZip ps cs
  | _, _ => False

theorem caselessHasPre_zip {pat s : GoStr} (h : caselessHasPre pat s = true) :
    caselessZip pat (s.take pat.length) := by
  induction pat generalizing s with
  | nil => simp [caselessZip]
  | cons p ps ih =>
    cases s with
    | nil => simp [caselessHasPre] at h
    | cons c cs =>
      simp only [caselessHasPre, Bool.and_eq_true, decide_eq_true_eq] at h
      simpa [caselessZip, h.1] using ih h.2

theorem caselessZip_no_mem {pat m : GoStr} {d : Char} (hz : caselessZip pat m)
    (hd : d.toNat < 97) (hd2 : ¬ (65 ≤ d.toNat ∧ d.toNat ≤ 90)) (hpat : d ∉ pat) :
    d ∉ m := by
  induction pat generalizing m with
  | nil =>
    cases m with
    | nil => simp
    | cons c cs => simp [caselessZip] at hz
  | cons p ps ih =>
    cases m with
    | nil => simp
    | cons c cs =>
      obtain ⟨h1, h2⟩ := hz
      intro hmem
      rcases List.mem_cons.mp hmem with hc | hc
      · subst hc
        have : asciiLowerChar p = asciiLowerChar d := h1.symm
        have hdd : asciiLowerChar d = d := by
          have ht := asciiLowerChar_toNat d
          rw [if_neg hd2] at ht
          exact charToNat_inj ht
        rw [hdd] at this
        have : p = d := (asciiLowerChar_eq_low hd hd2).mp this
        exact hpat (by simp [this])
      · exact ih h2 (fun hp => hpat (by simp [hp])) hc

theorem caselessZip_append_single {ps m : GoStr} {p : Char}
    (h : caselessZip (ps ++ [p]) m) :
    ∃ mid c, m = mid ++ [c] ∧ caselessZip ps mid ∧ asciiLowerChar c = asciiLowerChar p := by
  induction ps generalizing m with
  | nil =>
    cases m with
    | nil => simp [caselessZip] at h
    | cons c cs =>
      obtain ⟨h1, h2⟩ := h
      cases cs with
      | nil => exact ⟨[], c, by simp, by simp [caselessZip], h1⟩
      | cons c2 cs2 => simp [caselessZip] at h2
  | cons q qs ih =>
    cases m with
    | nil => simp [caselessZip] at h
    | cons c cs =>
      obtain ⟨h1, h2⟩ := h
      obtain ⟨mid, cl, heq, hz, hc⟩ := ih h2
      exact ⟨c :: mid, cl, by simp [heq], ⟨h1, hz⟩, hc⟩

theorem splitAtCaseless_zip {pat s b m a : GoStr}
    (h : splitAtCaseless pat s = some (b, m, a)) : caselessZip pat m := by
  induction s generalizing b m a with
  | nil =>
    simp only [splitAtCaseless] at h
    split at h
    · rename_i hp
      simp only [Option.some.injEq, Prod.mk.injEq] at h
      obtain ⟨hb, hm, ha⟩ := h
      subst hm
      simpa using caselessHasPre_zip hp
    · cases h
  | cons c rest ih =>
    simp only [splitAtCaseless] at h
    split at h
    · rename_i hp
      simp only [Option.some.injEq, Prod.mk.injEq] at h
      obtain ⟨hb, hm, ha⟩ := h
      subst hm
      exact caselessHasPre_zip hp
    · cases hrec : splitAtCaseless pat rest with
      | none => rw [hrec] at h; cases h
      | some triple =>
        obtain ⟨b', m', a'⟩ := triple
        rw [hrec] at h
        simp only [Option.some.injEq, Prod.mk.injEq] at h
        obtain ⟨hb, hm, ha⟩ := h
        subst hm
        exact ih hrec

theorem splitAtCaselessNoNL_zip {pat s b m a : GoStr}
    (h : splitAtCaselessNoNL pat s = some (b, m, a)) : caselessZip pat m := by
  induction s generalizing b m a with
  | nil =>
    simp only [splitAtCaselessNoNL] at h
    split at h
    · rename_i hp
      simp only [Option.some.injEq, Prod.mk.injEq] at h
      obtain ⟨hb, hm, ha⟩ := h
      subst hm
      simpa using caselessHasPre_zip hp
    · cases h
  | cons c rest ih =>
    simp only [splitAtCaselessNoNL] at h
    split at h
    · rename_i hp
      simp only [Option.some.injEq, Prod.mk.injEq] at h
      obtain ⟨hb, hm, ha⟩ := h
      subst hm
      exact caselessHasPre_zip hp
    · split at h
      · cases h
      · cases hrec : splitAtCaselessNoNL pat rest with
        | none => rw [hrec] at h; cases h
        | some triple =>
          obtain ⟨b', m', a'⟩ := triple
          rw [hrec] at h
          simp only [Option.some.injEq, Prod.mk.injEq] at h
          obtain ⟨hb, hm, ha⟩ := h
          subst hm
          exact ih hrec

theorem tryOpenAt_structure {tag s o r : GoStr} (h : tryOpenAt tag s = some (o, r)) :
    ∃ tagRaw attrs, o = '<' :: (tagRaw ++ attrs ++ ['>']) ∧
      caselessZip tag tagRaw ∧ '>' ∉ attrs := by
  cases s with
  | nil => cases h
  | cons c rest =>
    simp only [tryOpenAt] at h
    split at h
    · rename_i hp
      simp only [Bool.and_eq_true, decide_eq_true_eq] at hp
      obtain ⟨hc, hpre⟩ := hp
      split at h
      · cases h
      · rename_i g rest₃ hdw
        split at h
        · rename_i hg
          simp only [Option.some.injEq, Prod.mk.injEq] at h
          obtain ⟨ho, hr⟩ := h
          subst ho
          refine ⟨rest.take tag.length, (rest.drop tag.length).takeWhile (fun x => x ≠ '>'),
            rfl, ?_, ?_⟩
          · have := caselessHasPre_zip hpre
            exact this
          · intro hmem
            have := List.mem_takeWhile_imp hmem
            simp at this
        · cases h
    · cases h

/-- Shape of the raw text matched against the close pattern
`</TAG>`. -/
theorem closeRaw_shape {tag m : GoStr} (htag : '>' ∉ tag)
    (hz : caselessZip ('<' :: '/' :: (tag ++ ['>'])) m) :
    ∃ mid, m = '<' :: (mid ++ ['>']) ∧ '>' ∉ mid := by
  cases m with
  | nil => simp [caselessZip] at hz
  | cons c0 m1 =>
    obtain ⟨h0, hz1⟩ := hz
    have hlt : ¬ (65 ≤ ('<' : Char).toNat ∧ ('<' : Char).toNat ≤ 90) := by decide
    have hc0 : c0 = '<' := by
      have : asciiLowerChar '<' = '<' := by decide
      rw [this] at h0
      exact (asciiLowerChar_eq_low (by decide) hlt).mp h0
    subst hc0
    have hz2 : caselessZip (('/' :: tag) ++ ['>']) m1 := hz1
    obtain ⟨mid, cl, heq, hzmid, hcl⟩ := caselessZip_append_single hz2
    have hgt : ¬ (65 ≤ ('>' : Char).toNat ∧ ('>' : Char).toNat ≤ 90) := by decide
    have hcl' : cl = '>' := by
      have : asciiLowerChar '>' = '>' := by decide
      rw [this] at hcl
      exact (asciiLowerChar_eq_low (by decide) hgt).mp hcl
    subst hcl'
    refine ⟨mid, by simp [heq], ?_⟩
    exact caselessZip_no_mem hzmid (by decide) hgt (by
      intro hm
      rcases List.mem_cons.mp hm with hm | hm
      · cases hm
      · exact htag hm)

/-- The retained full match of a block strips to exactly what its inner
part strips to. -/
theorem tryBlockAt_strip {tag : GoStr} {dotAll : Bool} {s : GoStr} {m : TagMatch} {r : GoStr}
    (htag : '>' ∉ tag) (h : tryBlockAt tag dotAll s = some (m, r)) :
    stripHTMLTags m.full = stripHTMLTags m.inner := by
  unfold tryBlockAt at h
  cases hopen : tryOpenAt tag s with
  | none => rw [hopen] at h; cases h
  | some pr =>
    obtain ⟨openRaw, rest⟩ := pr
    rw [hopen] at h
    simp only at h
    cases hsp : (if dotAll then splitAtCaseless ('<' :: '/' :: (tag ++ ['>'])) rest
                 else splitAtCaselessNoNL ('<' :: '/' :: (tag ++ ['>'])) rest) with
    | none => rw [hsp] at h; cases h
    | some triple =>
      obtain ⟨inner, closeRaw, after⟩ := triple
      rw [hsp] at h
      simp only [Option.some.injEq, Prod.mk.injEq] at h
      obtain ⟨hm, hr⟩ := h
      subst hm
      obtain ⟨tagRaw, attrs, hshape, hzip, hattrs⟩ := tryOpenAt_structure hopen
      have hzclose : caselessZip ('<' :: '/' :: (tag ++ ['>'])) closeRaw := by
        cases dotAll with
        | true => exact splitAtCaseless_zip (by simpa using hsp)
        | false => exact splitAtCaselessNoNL_zip (by simpa using hsp)
      obtain ⟨cmid, hcshape, hcmid⟩ := closeRaw_shape htag hzclose
      have htagRaw : '>' ∉ tagRaw :=
        caselessZip_no_mem hzip (by decide) (by decide) htag
      show stripHTMLTagsAux false (TagMatch.full ⟨openRaw, inner, closeRaw⟩) = _
      unfold TagMatch.full
      simp only
      rw [hshape]
      have hfull : ('<' :: (tagRaw ++ attrs ++ ['>'])) ++ inner ++ closeRaw =
          '<' :: ((tagRaw ++ attrs) ++ '>' :: (inner ++ closeRaw)) := by
        simp
      rw [hfull]
      rw [stripHTMLTagsAux_tagstep false (tagRaw ++ attrs) (inner ++ closeRaw) (by
        intro hmem
        rcases List.mem_append.mp hmem with hx | hx
        · exact htagRaw hx
        · exact hattrs hx)]
      rw [stripHTMLTagsAux_append false inner closeRaw]
      have hclose : ∀ b : Bool, stripHTMLTagsAux b closeRaw = [] := by
        intro b
        rw [hcshape]
        have : ('<' : Char) :: (cmid ++ ['>']) = '<' :: (cmid ++ '>' :: []) := by simp
        rw [this, stripHTMLTagsAux_tagstep b cmid [] hcmid]
        rfl
      rw [hclose]
      simp [stripHTMLTags]

theorem scanBlocksF_mem {tag : GoStr} {d : Bool} {fuel : Nat} {s : GoStr} {m : TagMatch}
    (h : m ∈ scanBlocksF tag d fuel s) : ∃ s' r, tryBlockAt tag d s' = some (m, r) := by
  induction fuel generalizing s with
  | zero =>
    cases s with
    | nil => simp [scanBlocksF] at h
    | cons c rest => simp [scanBlocksF] at h
  | succ fuel ih =>
    cases s with
    | nil => simp [scanBlocksF] at h
    | cons c rest =>
      simp only [scanBlocksF] at h
      cases hb : tryBlockAt tag d (c :: rest) with
      | some pr =>
        obtain ⟨m', after⟩ := pr
        rw [hb] at h
        simp only [List.mem_cons] at h
        rcases h with h | h
        · subst h
          exact ⟨c :: rest, after, hb⟩
        · exact ih h
      | none =>
        rw [hb] at h
        exact ih h

/-- One per-level heading pass of `htmlToElements`. -/
def headingPass (t tag : GoStr) (lvl : Nat) : List Element :=
  (scanBlocks tag true t).filterMap (fun m =>
    let text := goTrimSpace (stripHTMLTags m.inner)
    if text ≠ [] then some (Element.heading text lvl) else none)

/-- The paragraph pass of `htmlToElements`: tag-stripped trimmed text,
original full match retained as HTML. -/
def paragraphPass (t : GoStr) : List Element :=
  (scanBlocks (strOf "p") true t).filterMap (fun m =>
    let text := stripHTMLTags m.inner
    if goTrimSpace text ≠ [] then
      some (Element.paragraph ⟨goTrimSpace text, m.full⟩)
    else none)

/-- Embeds `htmlToElements`: strip head/script/style, collect headings
level by level, then paragraphs; a segment yielding nothing becomes one
paragraph holding the whole remaining markup. -/
def htmlToElements (htmlContent : GoStr) : List Element :=
  let t := replaceBlocks (strOf "head") true [] htmlContent
  let t := replaceBlocks (strOf "script") true [] t
  let t := replaceBlocks (strOf "style") true [] t
  let headings :=
    headingPass t (strOf "h1") 1 ++ headingPass t (strOf "h2") 2 ++
    headingPass t (strOf "h3") 3 ++ headingPass t (strOf "h4") 4 ++
    headingPass t (strOf "h5") 5 ++ headingPass t (strOf "h6") 6
  let elements := headings ++ paragraphPass t
  if elements = [] then
    let text := stripHTMLTags t
    if goTrimSpace text ≠ [] then [Element.paragraph ⟨goTrimSpace text, t⟩] else []
  else elements

/-- First nonempty tag-stripped trimmed inner text of a `(?is)` block of
`tag`, used by `extractChapterTitle`. -/
def tryTitleTag (tag : GoStr) (htmlContent : GoStr) : Option GoStr :=
  match (scanBlocks tag true htmlContent).head? with
  | some m =>
    let ti := goTrimSpace (stripHTMLTags m.inner)
    if ti ≠ [] then some ti else none
  | none => none

/-- Embeds `extractChapterTitle`: first `<h1>`, else first `<h2>`, else
`<title>` content, else the fallback. -/
def extractChapterTitle (htmlContent fallback : GoStr) : GoStr :=
  match tryTitleTag (strOf "h1") htmlContent with
  | some t => t
  | none =>
    match tryTitleTag (strOf "h2") htmlContent with
    | some t => t
    | none =>
      match tryTitleTag (strOf "title") htmlContent with
      | some t => t
      | none => fallback

theorem dropWhile_head_false {p : Char → Bool} {l : GoStr} {c : Char} {t : GoStr}
    (h : l.dropWhile p = c :: t) : p c = false := by
  induction l with
  | nil => cases h
  | cons a rest ih =>
    rw [List.dropWhile_cons] at h
    split at h
    · exact ih h
    · rename_i hp
      injection h with h1 h2
      subst h1
      simpa using hp

theorem dropWhile_idem (p : Char → Bool) (l : GoStr) :
    (l.dropWhile p).dropWhile p = l.dropWhile p := by
  induction l with
  | nil => simp
  | cons c rest ih =>
    rw [List.dropWhile_cons]
    split
    · exact ih
    · rename_i hp
      rw [List.dropWhile_cons, if_neg hp]

/-- Go `strings.TrimSpace` is idempotent. -/
theorem goTrimSpace_idem (l : GoStr) : goTrimSpace (goTrimSpace l) = goTrimSpace l := by
  unfold goTrimSpace dropTrailing
  have hC : ∀ x : GoStr, (x.reverse.dropWhile goIsSpace).reverse.reverse.dropWhile goIsSpace =
      x.reverse.dropWhile goIsSpace := by
    intro x
    rw [List.reverse_reverse]
    exact dropWhile_idem _ _
  set A := l.dropWhile goIsSpace with hA
  set C := A.reverse.dropWhile goIsSpace with hCdef
  have hfront : C.reverse.dropWhile goIsSpace = C.reverse := by
    cases hB : C.reverse with
    | nil => simp
    | cons b t =>
      have hsf : C <:+ A.reverse := List.dropWhile_suffix _
      have hpre : C.reverse <+: A := by
        have := List.reverse_prefix.mpr hsf
        rwa [List.reverse_reverse] at this
      obtain ⟨t', ht'⟩ := hpre
      rw [hB] at ht'
      have hpb : goIsSpace b = false := by
        apply @dropWhile_head_false goIsSpace l b (t ++ t')
        rw [← hA]
        rw [← ht']
        simp
      rw [List.dropWhile_cons, if_neg (by simp [hpb])]
  rw [hfront]
  rw [List.reverse_reverse, hCdef, dropWhile_idem]

/-- The FB2 text conversion always returns a trimmed string. -/
theorem fb2XMLToText_trimmed (u : GoStr → GoStr) (x : GoStr) :
    goTrimSpace (fb2XMLToText u x) = fb2XMLToText u x := by
  unfold fb2XMLToText
  split
  · rfl
  · exact goTrimSpace_idem _

/-- The paragraph records an element carries (directly or inside an
epigraph). -/
def elementParas : Element → List Paragraph
  | .paragraph p => [p]
  | .epigraph ps => ps
  | _ => []

theorem headingPass_no_paragraph {t tag : GoStr} {lvl : Nat} {p : Paragraph} :
    Element.paragraph p ∉ headingPass t tag lvl := by
  intro h
  unfold headingPass at h
  rw [List.mem_filterMap] at h
  obtain ⟨m, _, hf⟩ := h
  dsimp only at hf
  split at hf
  · cases hf
  · cases hf

theorem paragraphPass_text {t : GoStr} {p : Paragraph}
    (h : Element.paragraph p ∈ paragraphPass t) :
    p.Text = goTrimSpace (stripHTMLTags p.HTML) := by
  unfold paragraphPass at h
  rw [List.mem_filterMap] at h
  obtain ⟨m, hm, hf⟩ := h
  dsimp only at hf
  split at hf
  · rename_i hne
    simp only [Option.some.injEq, Element.paragraph.injEq] at hf
    subst hf
    obtain ⟨s', r, hb⟩ := scanBlocksF_mem hm
    have hstrip := tryBlockAt_strip (by decide) hb
    simp only
    rw [hstrip]
  · cases hf

theorem htmlToElements_paragraph {h : GoStr} {p : Paragraph}
    (hp : Element.paragraph p ∈ htmlToElements h) :
    p.Text = goTrimSpace (stripHTMLTags p.HTML) := by
  unfold htmlToElements at hp
  dsimp only at hp
  split at hp
  · split at hp
    · simp only [List.mem_singleton, Element.paragraph.injEq] at hp
      subst hp
      rfl
    · simp at hp
  · simp only [List.append_assoc, List.mem_append] at hp
    rcases hp with h1 | h1 | h1 | h1 | h1 | h1 | h1
    · exact absurd h1 headingPass_no_paragraph
    · exact absurd h1 headingPass_no_paragraph
    · exact absurd h1 headingPass_no_paragraph
    · exact absurd h1 headingPass_no_paragraph
    · exact absurd h1 headingPass_no_paragraph
    · exact absurd h1 headingPass_no_paragraph
    · exact paragraphPass_text h1

theorem sectionToElements_paragraph {u : GoStr → GoStr} {s : Fb2Section} {p : Paragraph}
    (hp : ∃ e ∈ sectionToElements u s, p ∈ elementParas e) :
    p.Text = fb2XMLToText u p.HTML := by
  obtain ⟨e, he, hpe⟩ := hp
  unfold sectionToElements at he
  simp only [List.mem_append] at he
  rcases he with (he | he) | he
  · split at he
    · simp only [List.mem_singleton] at he
      subst he
      simp [elementParas] at hpe
    · simp at he
  · rw [List.mem_filterMap] at he
    obtain ⟨ep, hep, hf⟩ := he
    split at hf
    · simp only [Option.some.injEq] at hf
      subst hf
      simp only [elementParas] at hpe
      unfold epigraphParagraphs at hpe
      rw [List.mem_filterMap] at hpe
      obtain ⟨c, hc, hcf⟩ := hpe
      dsimp only at hcf
      split at hcf
      · simp only [Option.some.injEq] at hcf
        subst hcf
        simp only
        exact fb2XMLToText_trimmed u c
      · cases hcf
    · cases hf
  · rw [List.mem_filterMap] at he
    obtain ⟨c, hc, hcf⟩ := he
    split at hcf
    · simp only [Option.some.injEq, Element.paragraph.injEq] at hcf
      subst hcf
      simp only [elementParas, List.mem_singleton] at hpe
      subst hpe
      simp only
      exact fb2XMLToText_trimmed u c
    · cases hcf

/-- C1 counterexample: the FB2 parser keeps the raw inner markup
`A &amp; B` as the Paragraph's HTML but entity-decodes the Text to
`A & B`, so stripping tags from the retained markup (which contains no
tags and is left unchanged by `stripHTMLTags`) does not reproduce the
Text. -/
theorem paragraph_markup_strip_counterexample :
    Element.paragraph ⟨strOf "A & B", strOf "A &amp; B"⟩ ∈
      sectionToElements unescapeBasic (.mk [] [strOf "A &amp; B"] [] []) ∧
    strOf "A &amp; B" ≠ [] ∧
    stripHTMLTags (strOf "A &amp; B") ≠ strOf "A & B" := by
  refine ⟨?_, by decide, by decide⟩
  decide

/-- C1 (amended): an EPUB-produced Paragraph's Text is the
*whitespace-trimmed* tag-stripping of its retained markup; an
FB2-produced Paragraph's Text is the full FB2 markup-to-text conversion
(tag stripping plus entity decoding and whitespace normalisation) of its
retained markup. -/
theorem paragraph_markup_strips_to_text :
    (∀ (h : GoStr) (p : Paragraph), Element.paragraph p ∈ htmlToElements h →
      p.Text = goTrimSpace (stripHTMLTags p.HTML)) ∧
    (∀ (u : GoStr → GoStr) (s : Fb2Section) (p : Paragraph),
      (∃ e ∈ sectionToElements u s, p ∈ elementParas e) →
      p.Text = fb2XMLToText u p.HTML) :=
  ⟨fun _ _ hp => htmlToElements_paragraph hp,
   fun _ _ _ hp => sectionToElements_paragraph hp⟩

/-- Witness for the amended C1 at concrete inputs on both parsers. -/
theorem paragraph_markup_strips_to_text_witness :
    strOf "x" = goTrimSpace (stripHTMLTags (strOf "<p> x </p>")) ∧
    strOf "A & B" = fb2XMLToText unescapeBasic (strOf "A &amp; B") := by
  constructor
  · have := paragraph_markup_strips_to_text.1 (strOf "<p> x </p>")
      ⟨strOf "x", strOf "<p> x </p>"⟩ (by decide)
    simpa using this
  · have := paragraph_markup_strips_to_text.2 unescapeBasic
      (.mk [] [strOf "A &amp; B"] [] [])
      ⟨strOf "A & B", strOf "A &amp; B"⟩
      ⟨Element.paragraph ⟨strOf "A & B", strOf "A &amp; B"⟩, by decide, by decide⟩
    simpa using this

/-! ## EPUB TOC resolution (claim C2)

The ZIP archive, path normalisation and the two TOC-file parsers
(`parseNCXTOCEntries`, `parseNavXHTMLTOCEntries`) are external effects
from this function's viewpoint; they enter as parameters keyed by the
normalised path. Go map iteration order over the manifest is modelled as
manifest declaration order (with the ids distinct, as EPUB requires). -/

/-- `epubTOCEntry`. -/
structure EpubTOCEntry where
  Title : GoStr
  Path : GoStr
  Anchor : GoStr
  deriving DecidableEq, Repr

/-- Lookup in the Go map built from manifest items (later duplicate ids
overwrite earlier ones). -/
def manifestLookup (items : List EpubManifestItem) (tocID : GoStr) : Option EpubManifestItem :=
  items.foldl (fun acc it => if it.id = tocID then some it else acc) none

/-- Media type for an id, with Go's zero value for a missing key. -/
def manifestMediaType (items : List EpubManifestItem) (tocID : GoStr) : GoStr :=
  match manifestLookup items tocID with
  | some it => it.mediaType
  | none => []

/-- The manifest filter of `extractTOCEntries`: NCX items, and XHTML
items whose id contains "nav" case-insensitively. -/
def tocItemPred (it : EpubManifestItem) : Bool :=
  it.mediaType = strOf "application/x-dtbncx+xml" ||
  (it.mediaType = strOf "application/xhtml+xml" &&
    containsSub (asciiLower it.id) (strOf "nav"))

/-- Candidate TOC ids as the code assembles them: the spine's declared
TOC id (when nonempty), then the single pass over the manifest map. -/
def tocCandidateIDs (spineTOCID : GoStr) (items : List EpubManifestItem) : List GoStr :=
  (if spineTOCID ≠ [] then [spineTOCID] else []) ++ (items.filter tocItemPred).map (·.id)

/-- Written from the spec's words (claim C2): spine TOC id first, then
*every NCX item*, then *every nav-XHTML item* — the grouping the claim
asserts. -/
def tocCandidateIDsClaimed (spineTOCID : GoStr) (items : List EpubManifestItem) : List GoStr :=
  (if spineTOCID ≠ [] then [spineTOCID] else []) ++
  (items.filter (fun it => it.mediaType = strOf "application/x-dtbncx+xml")).map (·.id) ++
  (items.filter (fun it => it.mediaType = strOf "application/xhtml+xml" &&
    containsSub (asciiLower it.id) (strOf "nav"))).map (·.id)

/-- The candidate loop of `extractTOCEntries`: skip candidates without a
manifest href or file; parse NCX or nav-XHTML according to media type;
return the first error-free nonempty entry list. -/
def tryTOCCandidates (normalize : GoStr → GoStr) (findFile : GoStr → Bool)
    (parseNCX parseNav : GoStr → Except Unit (List EpubTOCEntry))
    (items : List EpubManifestItem) : List GoStr → List EpubTOCEntry
  | [] => []
  | tocID :: restIDs =>
    match manifestLookup items tocID with
    | none => tryTOCCandidates normalize findFile parseNCX parseNav items restIDs
    | some it =>
      let tocPath := normalize it.href
      if findFile tocPath then
        let mediaType := manifestMediaType items tocID
        if mediaType = strOf "application/x-dtbncx+xml" then
          match parseNCX tocPath with
          | .ok entries =>
            if entries ≠ [] then entries
            else tryTOCCandidates normalize findFile parseNCX parseNav items restIDs
          | .error _ => tryTOCCandidates normalize findFile parseNCX parseNav items restIDs
        else if mediaType = strOf "application/xhtml+xml" then
          match parseNav tocPath with
          | .ok entries =>
            if entries ≠ [] then entries
            else tryTOCCandidates normalize findFile parseNCX parseNav items restIDs
          | .error _ => tryTOCCandidates normalize findFile parseNCX parseNav items restIDs
        else tryTOCCandidates normalize findFile parseNCX parseNav items restIDs
      else tryTOCCandidates normalize findFile parseNCX parseNav items restIDs

/-- Embeds `extractTOCEntries`. -/
def extractTOCEntries (normalize : GoStr → GoStr) (findFile : GoStr → Bool)
    (parseNCX parseNav : GoStr → Except Unit (List EpubTOCEntry))
    (items : List EpubManifestItem) (spineTOCID : GoStr) : List EpubTOCEntry :=
  tryTOCCandidates normalize findFile parseNCX parseNav items
    (tocCandidateIDs spineTOCID items)

/-- The outcome of one candidate in isolation: `some` of a nonempty
entry list exactly when the loop body would return it. -/
def attemptTOCCandidate (normalize : GoStr → GoStr) (findFile : GoStr → Bool)
    (parseNCX parseNav : GoStr → Except Unit (List EpubTOCEntry))
    (items : List EpubManifestItem) (tocID : GoStr) : Option (List EpubTOCEntry) :=
  match manifestLookup items tocID with
  | none => none
  | some it =>
    let tocPath := normalize it.href
    if findFile tocPath then
      let mediaType := manifestMediaType items tocID
      if mediaType = strOf "application/x-dtbncx+xml" then
        match parseNCX tocPath with
        | .ok entries => if entries ≠ [] then some entries else none
        | .error _ => none
      else if mediaType = strOf "application/xhtml+xml" then
        match parseNav tocPath with
        | .ok entries => if entries ≠ [] then some entries else none
        | .error _ => none
      else none
    else none

/-- C2 counterexample: a manifest declaring the nav-XHTML item before the
NCX item, both usable. The code (one pass over the manifest) tries the
nav item first and returns its entries, while the claim's
NCX-before-nav candidate order would return the NCX entries. -/
theorem toc_candidate_order_counterexample :
    (extractTOCEntries (fun p => p) (fun _ => true)
      (fun _ => .ok [⟨strOf "N", strOf "c1.html", []⟩])
      (fun _ => .ok [⟨strOf "V", strOf "c2.html", []⟩])
      [⟨strOf "navdoc", strOf "nav.xhtml", strOf "application/xhtml+xml"⟩,
       ⟨strOf "ncx", strOf "toc.ncx", strOf "application/x-dtbncx+xml"⟩] [] =
      [⟨strOf "V", strOf "c2.html", []⟩]) ∧
    (tryTOCCandidates (fun p => p) (fun _ => true)
      (fun _ => .ok [⟨strOf "N", strOf "c1.html", []⟩])
      (fun _ => .ok [⟨strOf "V", strOf "c2.html", []⟩])
      [⟨strOf "navdoc", strOf "nav.xhtml", strOf "application/xhtml+xml"⟩,
       ⟨strOf "ncx", strOf "toc.ncx", strOf "application/x-dtbncx+xml"⟩]
      (tocCandidateIDsClaimed []
        [⟨strOf "navdoc", strOf "nav.xhtml", strOf "application/xhtml+xml"⟩,
         ⟨strOf "ncx", strOf "toc.ncx", strOf "application/x-dtbncx+xml"⟩]) =
      [⟨strOf "N", strOf "c1.html", []⟩]) ∧
    ([⟨strOf "V", strOf "c2.html", []⟩] : List EpubTOCEntry) ≠
      [⟨strOf "N", strOf "c1.html", []⟩] := by
  refine ⟨by decide, by decide, by decide⟩

/-- C2 (amended): candidates are the spine's declared TOC id first, then
the manifest items that are NCX or nav-XHTML in a *single pass in
manifest (map-iteration) order* — NCX and nav candidates interleaved
rather than grouped; candidates are tried in exactly that order and
resolution stops at the first one yielding at least one entry. -/
theorem extractTOCEntries_first_success (normalize : GoStr → GoStr)
    (findFile : GoStr → Bool) (parseNCX parseNav : GoStr → Except Unit (List EpubTOCEntry))
    (items : List EpubManifestItem) (spineTOCID : GoStr) :
    extractTOCEntries normalize findFile parseNCX parseNav items spineTOCID =
      (((tocCandidateIDs spineTOCID items).filterMap
        (attemptTOCCandidate normalize findFile parseNCX parseNav items)).head?).getD [] ∧
    tocCandidateIDs spineTOCID items =
      (if spineTOCID ≠ [] then [spineTOCID] else []) ++ (items.filter tocItemPred).map (·.id) := by
  refine ⟨?_, rfl⟩
  unfold extractTOCEntries
  generalize tocCandidateIDs spineTOCID items = ids
  induction ids with
  | nil => rfl
  | cons tocID restIDs ih =>
    rw [tryTOCCandidates, List.filterMap]
    cases hl : manifestLookup items tocID with
    | none =>
      rw [show attemptTOCCandidate normalize findFile parseNCX parseNav items tocID = none by
        unfold attemptTOCCandidate; rw [hl]]
      exact ih
    | some it =>
      dsimp only
      by_cases hf : findFile (normalize it.href)
      · rw [if_pos hf]
        have hatt : attemptTOCCandidate normalize findFile parseNCX parseNav items tocID =
            (if manifestMediaType items tocID = strOf "application/x-dtbncx+xml" then
              match parseNCX (normalize it.href) with
              | .ok entries => if entries ≠ [] then some entries else none
              | .error _ => none
            else if manifestMediaType items tocID = strOf "application/xhtml+xml" then
              match parseNav (normalize it.href) with
              | .ok entries => if entries ≠ [] then some entries else none
              | .error _ => none
            else none) := by
          unfold attemptTOCCandidate
          rw [hl]
          dsimp only
          rw [if_pos hf]
        by_cases hm1 : manifestMediaType items tocID = strOf "application/x-dtbncx+xml"
        · rw [if_pos hm1]
          rw [if_pos hm1] at hatt
          cases hp : parseNCX (normalize it.href) with
          | ok entries =>
            rw [hp] at hatt
            dsimp only at hatt ⊢
            by_cases hne : entries ≠ []
            · rw [if_pos hne] at hatt
              rw [if_pos hne, hatt]
              simp
            · rw [if_neg hne] at hatt
              rw [if_neg hne, hatt]
              exact ih
          | error e =>
            rw [hp] at hatt
            dsimp only at hatt ⊢
            rw [hatt]
            exact ih
        · rw [if_neg hm1]
          rw [if_neg hm1] at hatt
          by_cases hm2 : manifestMediaType items tocID = strOf "application/xhtml+xml"
          · rw [if_pos hm2]
            rw [if_pos hm2] at hatt
            cases hp : parseNav (normalize it.href) with
            | ok entries =>
              rw [hp] at hatt
              dsimp only at hatt ⊢
              by_cases hne : entries ≠ []
              · rw [if_pos hne] at hatt
                rw [if_pos hne, hatt]
                simp
              · rw [if_neg hne] at hatt
                rw [if_neg hne, hatt]
                exact ih
            | error e =>
              rw [hp] at hatt
              dsimp only at hatt ⊢
              rw [hatt]
              exact ih
          · rw [if_neg hm2]
            rw [if_neg hm2] at hatt
            rw [hatt]
            exact ih
      · rw [if_neg hf]
        have hatt : attemptTOCCandidate normalize findFile parseNCX parseNav items tocID = none := by
          unfold attemptTOCCandidate
          rw [hl]
          dsimp only
          rw [if_neg hf]
        rw [hatt]
        exact ih

/-! ## EPUB anchor spans and chapter materialisation (claims C4, C9) -/

/-- Matcher for the tail of an anchor pattern after the one mandatory
whitespace: `ATTR\s*=\s*qANCHORq[^>]*>` with `q` the quote character
(case-insensitive attribute and anchor, per the pattern's `(?i)`
flag). -/
def matchAnchorAfterSpace (attr : GoStr) (q : Char) (anchor : GoStr) (r : GoStr) : Bool :=
  if caselessHasPre attr r then
    match (r.drop attr.length).dropWhile isRegexSpaceChar with
    | [] => false
    | c :: r₃ =>
      if c = '=' then
        match r₃.dropWhile isRegexSpaceChar with
        | [] => false
        | c₂ :: r₅ =>
          if c₂ = q then
            if caselessHasPre anchor r₅ then
              match r₅.drop anchor.length with
              | [] => false
              | c₃ :: r₇ => if c₃ = q then r₇.any (fun x => x = '>') else false
            else false
          else false
      else false
  else false

/-- The scan inside `<[^>]*` looking for `\sATTR\s*=\s*qANCHORq[^>]*>`:
at each position either the mandatory whitespace starts the attribute
match, or a non-`>` character is absorbed by `[^>]*`. -/
def anchorTagTail (attr : GoStr) (q : Char) (anchor : GoStr) : GoStr → Bool
  | [] => false
  | c :: rest =>
    (isRegexSpaceChar c && matchAnchorAfterSpace attr q anchor rest) ||
    (c ≠ '>' && anchorTagTail attr q anchor rest)

/-- Whether one anchor pattern `(?is)<[^>]*\sATTR\s*=\s*qANCHORq[^>]*>`
matches starting at the head of `s`. -/
def matchAnchorAt (attr : GoStr) (q : Char) (anchor : GoStr) (s : GoStr) : Bool :=
  match s with
  | [] => false
  | c :: rest => c = '<' && anchorTagTail attr q anchor rest

/-- Position of the leftmost suffix of `s` satisfying `m`
(`FindStringIndex`'s start offset). -/
def firstMatchPos (m : GoStr → Bool) : GoStr → Option Nat
  | [] => if m [] then some 0 else none
  | c :: rest => if m (c :: rest) then some 0 else (firstMatchPos m rest).map (· + 1)

/-- Embeds `findAnchorStart`: the four patterns tried in order —
id in double quotes, name in double quotes, id in single quotes, name in
single quotes — each searched over the whole document; 0 when the anchor
is empty or nothing matches. -/
def findAnchorStart (htmlContent anchor : GoStr) : Nat :=
  if anchor = [] then 0
  else
    match firstMatchPos (matchAnchorAt (strOf "id") (Char.ofNat 34) anchor) htmlContent with
    | some i => i
    | none =>
      match firstMatchPos (matchAnchorAt (strOf "name") (Char.ofNat 34) anchor) htmlContent with
      | some i => i
      | none =>
        match firstMatchPos (matchAnchorAt (strOf "id") (Char.ofNat 39) anchor) htmlContent with
        | some i => i
        | none =>
          match firstMatchPos (matchAnchorAt (strOf "name") (Char.ofNat 39) anchor) htmlContent with
          | some i => i
          | none => 0

/-- Written from the claim's words (C4): the offset of the *first
element in document order* whose id or name attribute (either quoting
style) equals the anchor. -/
def findAnchorStartClaimed (htmlContent anchor : GoStr) : Nat :=
  if anchor = [] then 0
  else
    match firstMatchPos (fun s =>
      matchAnchorAt (strOf "id") (Char.ofNat 34) anchor s ||
      matchAnchorAt (strOf "name") (Char.ofNat 34) anchor s ||
      matchAnchorAt (strOf "id") (Char.ofNat 39) anchor s ||
      matchAnchorAt (strOf "name") (Char.ofNat 39) anchor s) htmlContent with
    | some i => i
    | none => 0

/-- The chapter-materialisation loop of `extractChaptersFromTOC`,
parametrised by the anchor-start function (the caching of file contents
is observationally the repeated application of the pure `fetch`).
`i` is the 0-based index of the current entry in the full entry list. -/
def chaptersLoopWith (startFn : GoStr → GoStr → Nat) (fetch : GoStr → Option GoStr) :
    Nat → List EpubTOCEntry → List Chapter
  | _, [] => []
  | i, entry :: rest =>
    (if entry.Path = [] ∨ goTrimSpace entry.Title = [] then []
     else
       match fetch entry.Path with
       | none => []
       | some htmlContent =>
         let start := startFn htmlContent entry.Anchor
         let endPos :=
           match rest.head? with
           | some nxt =>
             if nxt.Path = entry.Path then
               let nextStart := startFn htmlContent nxt.Anchor
               if start < nextStart then nextStart else htmlContent.length
             else htmlContent.length
           | none => htmlContent.length
         let start := if htmlContent.length ≤ start then 0 else start
         let endPos := if endPos ≤ start ∨ htmlContent.length < endPos then
             htmlContent.length else endPos
         let segment := goTrimSpace ((htmlContent.take endPos).drop start)
         if segment = [] then []
         else
           [{ ID := strOf "toc-" ++ (Nat.repr (i + 1)).data,
              Title := extractChapterTitle segment (goTrimSpace entry.Title),
              Level := 0,
              Elements := htmlToElements segment }]) ++
    chaptersLoopWith startFn fetch (i + 1) rest

/-- Embeds `extractChaptersFromTOC` (given the already-extracted entry
list). -/
def chaptersFromTOCEntries (fetch : GoStr → Option GoStr) (entries : List EpubTOCEntry) :
    List Chapter :=
  if entries = [] then [] else chaptersLoopWith findAnchorStart fetch 0 entries

/-- Embeds `extractContent`'s spine fallback loop: one chapter per spine
item resolvable through the manifest and archive, level 0, titled by
`extractChapterTitle` with a 1-based "Chapter N" fallback. -/
def spineLoop (normalize : GoStr → GoStr) (fetch : GoStr → Option GoStr)
    (items : List EpubManifestItem) : Nat → List GoStr → List Chapter
  | _, [] => []
  | i, idref :: rest =>
    (match manifestLookup items idref with
     | none => []
     | some it =>
       match fetch (normalize it.href) with
       | none => []
       | some htmlContent =>
         [{ ID := idref,
            Title := goTrimSpace (extractChapterTitle htmlContent
              (strOf "Chapter " ++ (Nat.repr (i + 1)).data)),
            Level := 0,
            Elements := htmlToElements htmlContent }]) ++
    spineLoop normalize fetch items (i + 1) rest

/-- Embeds `extractContent`: TOC-based chapters when any, else the spine
fallback. -/
def extractContent (normalize : GoStr → GoStr) (findFile : GoStr → Bool)
    (parseNCX parseNav : GoStr → Except Unit (List EpubTOCEntry))
    (fetch : GoStr → Option GoStr) (items : List EpubManifestItem)
    (spineTOCID : GoStr) (itemRefs : List GoStr) : Content :=
  let tocChapters := chaptersFromTOCEntries fetch
    (extractTOCEntries normalize findFile parseNCX parseNav items spineTOCID)
  if tocChapters ≠ [] then ⟨tocChapters⟩
  else ⟨spineLoop normalize fetch items 0 itemRefs⟩

/-- C4 counterexample: the entry's anchor `a` appears first on a `name`
attribute and later on an `id` attribute. The code searches the whole
file for the id pattern before trying name, so the chapter starts at the
later `id` element; the claim's first-in-document-order rule would start
it at offset 0, producing a different chapter. -/
theorem anchor_priority_counterexample :
    (chaptersLoopWith findAnchorStart
      (fun p => if p = strOf "f.html" then
        some (strOf "<x name=\"a\">one<y id=\"a\">two") else none) 0
      [⟨strOf "T", strOf "f.html", strOf "a"⟩] =
      [{ ID := strOf "toc-1", Title := strOf "T", Level := 0,
         Elements := [Element.paragraph ⟨strOf "two", strOf "<y id=\"a\">two"⟩] }]) ∧
    (chaptersLoopWith findAnchorStartClaimed
      (fun p => if p = strOf "f.html" then
        some (strOf "<x name=\"a\">one<y id=\"a\">two") else none) 0
      [⟨strOf "T", strOf "f.html", strOf "a"⟩] =
      [{ ID := strOf "toc-1", Title := strOf "T", Level := 0,
         Elements := [Element.paragraph
           ⟨strOf "onetwo", strOf "<x name=\"a\">one<y id=\"a\">two"⟩] }]) ∧
    (strOf "two" : GoStr) ≠ strOf "onetwo" := by
  refine ⟨by decide, by decide, by decide⟩

/-- The per-entry chapter rule, written from the claim's words as
amended: the span starts at the four-pattern anchor offset (0 without an
anchor or match), ends at the next entry's start offset when the next
entry targets the same file (end-of-file otherwise or when that offset
is not beyond the start), an out-of-range start or non-positive span
falls back to the whole file, and a blank trimmed segment yields no
chapter. -/
def specChapterFor (fetch : GoStr → Option GoStr) (i : Nat) (entry : EpubTOCEntry)
    (next? : Option EpubTOCEntry) : List Chapter :=
  if entry.Path = [] ∨ goTrimSpace entry.Title = [] then []
  else
    match fetch entry.Path with
    | none => []
    | some content =>
      let start := findAnchorStart content entry.Anchor
      let endPos :=
        match next? with
        | some nxt =>
          if nxt.Path = entry.Path then
            if start < findAnchorStart content nxt.Anchor then
              findAnchorStart content nxt.Anchor
            else content.length
          else content.length
        | none => content.length
      let start := if content.length ≤ start then 0 else start
      let endPos := if endPos ≤ start ∨ content.length < endPos then content.length else endPos
      let segment := goTrimSpace ((content.take endPos).drop start)
      if segment = [] then []
      else
        [{ ID := strOf "toc-" ++ (Nat.repr (i + 1)).data,
           Title := extractChapterTitle segment (goTrimSpace entry.Title),
           Level := 0,
           Elements := htmlToElements segment }]

/-- C4 (amended): chapter materialisation follows the per-entry span
rule with the four-pattern anchor priority (id/name, double/single
quotes, each searched document-wide in that order) in place of the
claim's document-order first-of-either rule; entries are processed in
order, each contributing the chapter `specChapterFor` describes. -/
theorem extractChaptersFromTOC_spec :
    (∀ (fetch : GoStr → Option GoStr) (i : Nat),
      chaptersLoopWith findAnchorStart fetch i [] = []) ∧
    (∀ (fetch : GoStr → Option GoStr) (i : Nat) (entry : EpubTOCEntry)
        (rest : List EpubTOCEntry),
      chaptersLoopWith findAnchorStart fetch i (entry :: rest) =
        specChapterFor fetch i entry rest.head? ++
        chaptersLoopWith findAnchorStart fetch (i + 1) rest) := by
  exact ⟨fun _ _ => rfl, fun _ _ _ _ => rfl⟩

theorem chaptersLoopWith_level {startFn : GoStr → GoStr → Nat} {fetch : GoStr → Option GoStr}
    {i : Nat} {entries : List EpubTOCEntry} {ch : Chapter}
    (h : ch ∈ chaptersLoopWith startFn fetch i entries) : ch.Level = 0 := by
  induction entries generalizing i with
  | nil => simp [chaptersLoopWith] at h
  | cons entry rest ih =>
    rw [chaptersLoopWith] at h
    rw [List.mem_append] at h
    rcases h with h | h
    · repeat' first
        | split at h
        | dsimp only at h
      all_goals simp_all
    · exact ih h

theorem spineLoop_level {normalize : GoStr → GoStr} {fetch : GoStr → Option GoStr}
    {items : List EpubManifestItem} {i : Nat} {refs : List GoStr} {ch : Chapter}
    (h : ch ∈ spineLoop normalize fetch items i refs) : ch.Level = 0 := by
  induction refs generalizing i with
  | nil => simp [spineLoop] at h
  | cons idref rest ih =>
    rw [spineLoop] at h
    rw [List.mem_append] at h
    rcases h with h | h
    · repeat' first
        | split at h
        | dsimp only at h
      all_goals simp_all
    · exact ih h

/-- C9: every chapter the EPUB parser produces — whether through the TOC
path (even from nested navPoints, which the NCX walk flattens into one
entry list) or through the spine fallback — has `Level = 0`. -/
theorem epub_chapters_level_zero (normalize : GoStr → GoStr) (findFile : GoStr → Bool)
    (parseNCX parseNav : GoStr → Except Unit (List EpubTOCEntry))
    (fetch : GoStr → Option GoStr) (items : List EpubManifestItem)
    (spineTOCID : GoStr) (itemRefs : List GoStr) (ch : Chapter)
    (h : ch ∈ (extractContent normalize findFile parseNCX parseNav fetch items
      spineTOCID itemRefs).Chapters) : ch.Level = 0 := by
  unfold extractContent at h
  dsimp only at h
  split at h
  · unfold chaptersFromTOCEntries at h
    split at h
    · simp at h
    · exact chaptersLoopWith_level h
  · exact spineLoop_level h

/-- Witness for C9: a one-entry NCX TOC produces one chapter, at level
0. -/
theorem epub_chapters_level_zero_witness :
    (extractContent (fun p => p) (fun _ => true)
      (fun _ => .ok [⟨strOf "T", strOf "c1.html", []⟩])
      (fun _ => .error ())
      (fun p => if p = strOf "c1.html" then some (strOf "<p>hi</p>") else none)
      [⟨strOf "ncx", strOf "toc.ncx", strOf "application/x-dtbncx+xml"⟩]
      (strOf "ncx") []).Chapters =
      [{ ID := strOf "toc-1", Title := strOf "T", Level := 0,
         Elements := [Element.paragraph ⟨strOf "hi", strOf "<p>hi</p>"⟩] }] ∧
    ({ ID := strOf "toc-1", Title := strOf "T", Level := 0,
       Elements := [Element.paragraph ⟨strOf "hi", strOf "<p>hi</p>"⟩] } : Chapter).Level = 0 := by
  constructor
  · decide
  · exact epub_chapters_level_zero (fun p => p) (fun _ => true)
      (fun _ => .ok [⟨strOf "T", strOf "c1.html", []⟩])
      (fun _ => .error ())
      (fun p => if p = strOf "c1.html" then some (strOf "<p>hi</p>") else none)
      [⟨strOf "ncx", strOf "toc.ncx", strOf "application/x-dtbncx+xml"⟩]
      (strOf "ncx") []
      { ID := strOf "toc-1", Title := strOf "T", Level := 0,
        Elements := [Element.paragraph ⟨strOf "hi", strOf "<p>hi</p>"⟩] }
      (by decide)

/-! ## FB2 sanitizer pipeline and idempotence (claim C10)

Byte-level embedding of `sanitizeFB2XML` and its four passes. The
`unicode/utf8` codec is embedded exactly (Go's `DecodeRune` with its
per-lead-byte acceptance windows, and `AppendRune`'s encoder). -/

/-- A Unicode scalar value (what Go calls a valid rune): not a
surrogate, at most U+10FFFF. -/
def IsScalar (r : Nat) : Prop := r < 0xD800 ∨ (0xE000 ≤ r ∧ r ≤ 0x10FFFF)


/-- Go `utf8.DecodeRune`'s acceptance window for the second byte, which
depends on the lead byte (excludes overlong encodings, surrogates and
values above U+10FFFF). -/
def utf8Accept2nd (b0 b1 : Nat) : Bool :=
  if b0 = 0xE0 then 0xA0 ≤ b1 && b1 ≤ 0xBF
  else if b0 = 0xED then 0x80 ≤ b1 && b1 ≤ 0x9F
  else if b0 = 0xF0 then 0x90 ≤ b1 && b1 ≤ 0xBF
  else if b0 = 0xF4 then 0x80 ≤ b1 && b1 ≤ 0x8F
  else 0x80 ≤ b1 && b1 ≤ 0xBF

/-- Embeds Go `utf8.DecodeRune`: the rune at the head of the byte list
and its encoded size; `(0xFFFD, 1)` for an invalid encoding,
`(0xFFFD, 0)` for empty input. -/
def decodeRune : GoBytes → Nat × Nat
  | [] => (0xFFFD, 0)
  | b0 :: rest =>
    if b0 < 0x80 then (b0, 1)
    else if 0xC2 ≤ b0 ∧ b0 ≤ 0xDF then
      match rest with
      | b1 :: _ =>
        if 0x80 ≤ b1 ∧ b1 ≤ 0xBF then ((b0 - 0xC0) * 64 + (b1 - 0x80), 2)
        else (0xFFFD, 1)
      | [] => (0xFFFD, 1)
    else if 0xE0 ≤ b0 ∧ b0 ≤ 0xEF then
      match rest with
      | b1 :: rest2 =>
        if utf8Accept2nd b0 b1 then
          match rest2 with
          | b2 :: _ =>
            if 0x80 ≤ b2 ∧ b2 ≤ 0xBF then
              ((b0 - 0xE0) * 4096 + (b1 - 0x80) * 64 + (b2 - 0x80), 3)
            else (0xFFFD, 1)
          | [] => (0xFFFD, 1)
        else (0xFFFD, 1)
      | [] => (0xFFFD, 1)
    else if 0xF0 ≤ b0 ∧ b0 ≤ 0xF4 then
      match rest with
      | b1 :: rest2 =>
        if utf8Accept2nd b0 b1 then
          match rest2 with
          | b2 :: rest3 =>
            if 0x80 ≤ b2 ∧ b2 ≤ 0xBF then
              match rest3 with
              | b3 :: _ =>
                if 0x80 ≤ b3 ∧ b3 ≤ 0xBF then
                  ((b0 - 0xF0) * 262144 + (b1 - 0x80) * 4096 + (b2 - 0x80) * 64 +
                    (b3 - 0x80), 4)
                else (0xFFFD, 1)
              | [] => (0xFFFD, 1)
            else (0xFFFD, 1)
          | [] => (0xFFFD, 1)
        else (0xFFFD, 1)
      | [] => (0xFFFD, 1)
    else (0xFFFD, 1)

/-- Embeds Go `utf8.AppendRune`'s encoder: the UTF-8 bytes of a scalar,
with non-scalars encoded as U+FFFD. -/
def encodeRune (r : Nat) : GoBytes :=
  if r < 0x80 then [r]
  else if r < 0x800 then [0xC0 + r / 64, 0x80 + r % 64]
  else if (0xD800 ≤ r ∧ r ≤ 0xDFFF) ∨ 0x10FFFF < r then [0xEF, 0xBF, 0xBD]
  else if r < 0x10000 then [0xE0 + r / 4096, 0x80 + r / 64 % 64, 0x80 + r % 64]
  else [0xF0 + r / 262144, 0x80 + r / 4096 % 64, 0x80 + r / 64 % 64, 0x80 + r % 64]

theorem utf8Accept2nd_bounds {b0 b1 : Nat} (h : utf8Accept2nd b0 b1 = true) :
    0x80 ≤ b1 ∧ b1 ≤ 0xBF ∧ (b0 = 0xE0 → 0xA0 ≤ b1) ∧ (b0 = 0xED → b1 ≤ 0x9F) ∧
    (b0 = 0xF0 → 0x90 ≤ b1) ∧ (b0 = 0xF4 → b1 ≤ 0x8F) := by
  unfold utf8Accept2nd at h
  split at h
  · rename_i he
    simp only [Bool.and_eq_true, decide_eq_true_eq] at h
    subst he
    refine ⟨by omega, by omega, fun _ => by omega, fun hx => by omega, fun hx => by omega,
      fun hx => by omega⟩
  · split at h
    · rename_i hne he
      simp only [Bool.and_eq_true, decide_eq_true_eq] at h
      subst he
      refine ⟨by omega, by omega, fun hx => by omega, fun _ => by omega, fun hx => by omega,
        fun hx => by omega⟩
    · split at h
      · rename_i h1 h2 he
        simp only [Bool.and_eq_true, decide_eq_true_eq] at h
        subst he
        refine ⟨by omega, by omega, fun hx => by omega, fun hx => by omega, fun _ => by omega,
          fun hx => by omega⟩
      · split at h
        · rename_i h1 h2 h3 he
          simp only [Bool.and_eq_true, decide_eq_true_eq] at h
          subst he
          refine ⟨by omega, by omega, fun hx => by omega, fun hx => by omega,
            fun hx => by omega, fun _ => by omega⟩
        · rename_i h1 h2 h3 h4
          simp only [Bool.and_eq_true, decide_eq_true_eq] at h
          refine ⟨by omega, by omega, fun hx => absurd hx h1, fun hx => absurd hx h2,
            fun hx => absurd hx h3, fun hx => absurd hx h4⟩

theorem utf8Accept2nd_of_encode3 {r : Nat} (h1 : 0x800 ≤ r) (h2 : r < 0x10000)
    (h3 : ¬ (0xD800 ≤ r ∧ r ≤ 0xDFFF)) :
    utf8Accept2nd (0xE0 + r / 4096) (0x80 + r / 64 % 64) = true := by
  unfold utf8Accept2nd
  have hdd1 : r / 64 / 64 = r / 4096 := by rw [Nat.div_div_eq_div_mul]
  split
  · rename_i he
    have : r / 4096 = 0 := by omega
    simp only [Bool.and_eq_true, decide_eq_true_eq]
    omega
  · split
    · rename_i hne he
      have : r / 4096 = 13 := by omega
      simp only [Bool.and_eq_true, decide_eq_true_eq]
      omega
    · split
      · rename_i h1' h2' he
        omega
      · split
        · rename_i h1' h2' h3' he
          omega
        · simp only [Bool.and_eq_true, decide_eq_true_eq]
          omega

theorem utf8Accept2nd_of_encode4 {r : Nat} (h1 : 0x10000 ≤ r) (h2 : r ≤ 0x10FFFF) :
    utf8Accept2nd (0xF0 + r / 262144) (0x80 + r / 4096 % 64) = true := by
  unfold utf8Accept2nd
  have hdd2 : r / 4096 / 64 = r / 262144 := by rw [Nat.div_div_eq_div_mul]
  split
  · rename_i he
    omega
  · split
    · rename_i hne he
      omega
    · split
      · rename_i h1' h2' he
        have : r / 262144 = 0 := by omega
        simp only [Bool.and_eq_true, decide_eq_true_eq]
        omega
      · split
        · rename_i h1' h2' h3' he
          have : r / 262144 = 4 := by omega
          simp only [Bool.and_eq_true, decide_eq_true_eq]
          omega
        · simp only [Bool.and_eq_true, decide_eq_true_eq]
          omega

set_option maxRecDepth 4000 in
theorem decodeRune_encodeRune (r : Nat) (hs : IsScalar r) (tail : GoBytes) :
    decodeRune (encodeRune r ++ tail) = (r, (encodeRune r).length) := by
  by_cases h1 : r < 0x80
  · simp only [encodeRune, if_pos h1, List.cons_append, List.nil_append]
    simp [decodeRune, h1]
  · by_cases h2 : r < 0x800
    · simp only [encodeRune, if_neg h1, if_pos h2, List.cons_append, List.nil_append]
      rw [decodeRune.eq_def]
      dsimp only
      rw [if_neg (by omega), if_pos (by omega)]
      simp only [if_pos (by omega : 0x80 ≤ 0x80 + r % 64 ∧ 0x80 + r % 64 ≤ 0xBF)]
      simp only [Prod.mk.injEq, List.length_cons, List.length_nil, and_true]
      omega
    · have hnsur : ¬ ((0xD800 ≤ r ∧ r ≤ 0xDFFF) ∨ 0x10FFFF < r) := by
        rcases hs with hs | hs
        · omega
        · omega
      by_cases h3 : r < 0x10000
      · simp only [encodeRune, if_neg h1, if_neg h2, if_neg hnsur, if_pos h3,
          List.cons_append, List.nil_append]
        rw [decodeRune.eq_def]
        dsimp only
        rw [if_neg (by omega), if_neg (by omega), if_pos (by omega)]
        rw [if_pos (utf8Accept2nd_of_encode3 (by omega) h3 (by omega))]
        simp only [if_pos (by omega : 0x80 ≤ 0x80 + r % 64 ∧ 0x80 + r % 64 ≤ 0xBF)]
        simp only [Prod.mk.injEq, List.length_cons, List.length_nil, and_true]
        have hdd1 : r / 64 / 64 = r / 4096 := by rw [Nat.div_div_eq_div_mul]
        omega
      · have hr4 : 0x10000 ≤ r ∧ r ≤ 0x10FFFF := by
          rcases hs with hs | hs
          · omega
          · omega
        simp only [encodeRune, if_neg h1, if_neg h2, if_neg hnsur, if_neg h3,
          List.cons_append, List.nil_append]
        rw [decodeRune.eq_def]
        dsimp only
        rw [if_neg (by omega), if_neg (by omega), if_neg (by omega), if_pos (by omega)]
        rw [if_pos (utf8Accept2nd_of_encode4 hr4.1 hr4.2)]
        simp only [if_pos (by omega : 0x80 ≤ 0x80 + r / 64 % 64 ∧ 0x80 + r / 64 % 64 ≤ 0xBF),
          if_pos (by omega : 0x80 ≤ 0x80 + r % 64 ∧ 0x80 + r % 64 ≤ 0xBF)]
        simp only [Prod.mk.injEq, List.length_cons, List.length_nil, and_true]
        have hdd1 : r / 64 / 64 = r / 4096 := by rw [Nat.div_div_eq_div_mul]
        have hdd2 : r / 4096 / 64 = r / 262144 := by rw [Nat.div_div_eq_div_mul]
        omega

theorem decodeRune_size {l : GoBytes} (hne : l ≠ []) :
    1 ≤ (decodeRune l).2 ∧ (decodeRune l).2 ≤ l.length := by
  match l with
  | b0 :: rest =>
    rw [decodeRune.eq_def]
    dsimp only
    repeat' split
    all_goals try simp
    all_goals omega

set_option maxRecDepth 4000 in
theorem decodeRune_roundtrip {l : GoBytes} {r sz : Nat}
    (h : decodeRune l = (r, sz)) (herr : ¬ (r = 0xFFFD ∧ sz = 1)) (hne : l ≠ []) :
    l.take sz = encodeRune r ∧ IsScalar r := by
  match l with
  | b0 :: rest =>
    rw [decodeRune.eq_def] at h
    dsimp only at h
    split at h
    · rename_i hb0
      obtain ⟨rfl, rfl⟩ : b0 = r ∧ 1 = sz := by
        simpa [Prod.ext_iff, eq_comm] using h
      refine ⟨?_, Or.inl (by omega)⟩
      simp [encodeRune, hb0]
    · rename_i hb0
      split at h
      · rename_i hb0r
        match rest with
        | [] => exact absurd (by simpa [Prod.ext_iff, eq_comm] using h) herr
        | b1 :: r2 =>
          dsimp only at h
          split at h
          · rename_i hb1
            obtain ⟨rfl, rfl⟩ : (b0 - 192) * 64 + (b1 - 128) = r ∧ 2 = sz := by
              simpa [Prod.ext_iff, eq_comm] using h
            refine ⟨?_, Or.inl (by omega)⟩
            show [b0, b1] = _
            rw [encodeRune]
            rw [if_neg (by omega), if_pos (by omega)]
            simp only [List.cons.injEq, and_true]
            refine ⟨by omega, by omega⟩
          · exact absurd (by simpa [Prod.ext_iff, eq_comm] using h) herr
      · split at h
        · rename_i hb0r
          match rest with
          | [] => exact absurd (by simpa [Prod.ext_iff, eq_comm] using h) herr
          | b1 :: r2 =>
            dsimp only at h
            split at h
            · rename_i hb1
              have hb := utf8Accept2nd_bounds hb1
              match r2 with
              | [] => exact absurd (by simpa [Prod.ext_iff, eq_comm] using h) herr
              | b2 :: r3 =>
                dsimp only at h
                split at h
                · rename_i hb2
                  obtain ⟨rfl, rfl⟩ :
                      (b0 - 224) * 4096 + (b1 - 128) * 64 + (b2 - 128) = r ∧ 3 = sz := by
                    simpa [Prod.ext_iff, eq_comm] using h
                  have hlo : 2048 ≤ (b0 - 224) * 4096 + (b1 - 128) * 64 + (b2 - 128) := by
                    by_cases h224 : b0 = 224
                    · have := hb.2.2.1 h224
                      subst h224
                      omega
                    · omega
                  have hscal : IsScalar ((b0 - 224) * 4096 + (b1 - 128) * 64 + (b2 - 128)) := by
                    by_cases h237 : b0 = 237
                    · have := hb.2.2.2.1 h237
                      subst h237
                      exact Or.inl (by omega)
                    · by_cases hle : b0 ≤ 236
                      · exact Or.inl (by omega)
                      · right
                        have h238 : 238 ≤ b0 := by omega
                        constructor
                        · have := hb.1
                          omega
                        · omega
                  refine ⟨?_, hscal⟩
                  show [b0, b1, b2] = _
                  rw [encodeRune]
                  have hnsur : ¬ ((0xD800 ≤ (b0 - 224) * 4096 + (b1 - 128) * 64 + (b2 - 128) ∧
                      (b0 - 224) * 4096 + (b1 - 128) * 64 + (b2 - 128) ≤ 0xDFFF) ∨
                      0x10FFFF < (b0 - 224) * 4096 + (b1 - 128) * 64 + (b2 - 128)) := by
                    rcases hscal with hx | hx
                    · omega
                    · omega
                  rw [if_neg (by omega), if_neg (by omega), if_neg hnsur, if_pos (by omega)]
                  have hdd1 : ((b0 - 224) * 4096 + (b1 - 128) * 64 + (b2 - 128)) / 64 / 64 =
                      ((b0 - 224) * 4096 + (b1 - 128) * 64 + (b2 - 128)) / 4096 := by
                    rw [Nat.div_div_eq_div_mul]
                  simp only [List.cons.injEq, and_true]
                  refine ⟨by omega, by omega, by omega⟩
                · exact absurd (by simpa [Prod.ext_iff, eq_comm] using h) herr
            · exact absurd (by simpa [Prod.ext_iff, eq_comm] using h) herr
        · split at h
          · rename_i hb0r
            match rest with
            | [] => exact absurd (by simpa [Prod.ext_iff, eq_comm] using h) herr
            | b1 :: r2 =>
              dsimp only at h
              split at h
              · rename_i hb1
                have hb := utf8Accept2nd_bounds hb1
                match r2 with
                | [] => exact absurd (by simpa [Prod.ext_iff, eq_comm] using h) herr
                | b2 :: r3 =>
                  dsimp only at h
                  split at h
                  · rename_i hb2
                    match r3 with
                    | [] => exact absurd (by simpa [Prod.ext_iff, eq_comm] using h) herr
                    | b3 :: r4 =>
                      dsimp only at h
                      split at h
                      · rename_i hb3
                        obtain ⟨rfl, rfl⟩ :
                            (b0 - 240) * 262144 + (b1 - 128) * 4096 + (b2 - 128) * 64 +
                              (b3 - 128) = r ∧ 4 = sz := by
                          simpa [Prod.ext_iff, eq_comm] using h
                        have hlo : 65536 ≤ (b0 - 240) * 262144 + (b1 - 128) * 4096 +
                            (b2 - 128) * 64 + (b3 - 128) := by
                          by_cases h240 : b0 = 240
                          · have := hb.2.2.2.2.1 h240
                            subst h240
                            omega
                          · omega
                        have hhi : (b0 - 240) * 262144 + (b1 - 128) * 4096 +
                            (b2 - 128) * 64 + (b3 - 128) ≤ 1114111 := by
                          by_cases h244 : b0 = 244
                          · have := hb.2.2.2.2.2 h244
                            subst h244
                            omega
                          · have : b0 ≤ 243 := by omega
                            have hb1le := hb.2.1
                            omega
                        refine ⟨?_, Or.inr ⟨by omega, hhi⟩⟩
                        show [b0, b1, b2, b3] = _
                        rw [encodeRune]
                        rw [if_neg (by omega), if_neg (by omega),
                          if_neg (by omega), if_neg (by omega)]
                        have hdd1 : ((b0 - 240) * 262144 + (b1 - 128) * 4096 +
                            (b2 - 128) * 64 + (b3 - 128)) / 64 / 64 =
                            ((b0 - 240) * 262144 + (b1 - 128) * 4096 +
                              (b2 - 128) * 64 + (b3 - 128)) / 4096 := by
                          rw [Nat.div_div_eq_div_mul]
                        have hdd2 : ((b0 - 240) * 262144 + (b1 - 128) * 4096 +
                            (b2 - 128) * 64 + (b3 - 128)) / 4096 / 64 =
                            ((b0 - 240) * 262144 + (b1 - 128) * 4096 +
                              (b2 - 128) * 64 + (b3 - 128)) / 262144 := by
                          rw [Nat.div_div_eq_div_mul]
                        simp only [List.cons.injEq, and_true]
                        refine ⟨by omega, by omega, by omega, by omega⟩
                      · exact absurd (by simpa [Prod.ext_iff, eq_comm] using h) herr
                  · exact absurd (by simpa [Prod.ext_iff, eq_comm] using h) herr
              · exact absurd (by simpa [Prod.ext_iff, eq_comm] using h) herr
          · exact absurd (by simpa [Prod.ext_iff, eq_comm] using h) herr

/-- The XML-legal code point test of `removeIllegalXMLChars`. -/
def isLegalXMLRune (r : Nat) : Bool :=
  r = 0x9 || r = 0xA || r = 0xD || (0x20 ≤ r && r ≤ 0xD7FF) ||
  (0xE000 ≤ r && r ≤ 0xFFFD) || (0x10000 ≤ r && r ≤ 0x10FFFF)

/-- Embeds Go `utf8.Valid` as a decode scan; fuelled worker (each step
consumes at least one byte). -/
def utf8ValidF : Nat → GoBytes → Bool
  | _, [] => true
  | 0, _ => false
  | fuel + 1, l =>
    let rs := decodeRune l
    if rs.1 = 0xFFFD ∧ rs.2 = 1 then false
    else utf8ValidF fuel (l.drop rs.2)

/-- Go `utf8.Valid`. -/
def utf8Valid (l : GoBytes) : Bool := utf8ValidF l.length l

/-- The Windows-1251 to Unicode mapping of
`charmap.Windows1251.DecodeByte` for the high half (the only bytes
`fixInvalidUTF8` feeds it); the undefined position 0x98 maps to
U+FFFD. -/
def win1251DecodeByte (b : Nat) : Nat :=
  if b < 0x80 then b
  else if 0xC0 ≤ b ∧ b ≤ 0xFF then 0x410 + (b - 0xC0)
  else match b with
  | 0x80 => 0x0402 | 0x81 => 0x0403 | 0x82 => 0x201A | 0x83 => 0x0453
  | 0x84 => 0x201E | 0x85 => 0x2026 | 0x86 => 0x2020 | 0x87 => 0x2021
  | 0x88 => 0x20AC | 0x89 => 0x2030 | 0x8A => 0x0409 | 0x8B => 0x2039
  | 0x8C => 0x040A | 0x8D => 0x040C | 0x8E => 0x040B | 0x8F => 0x040F
  | 0x90 => 0x0452 | 0x91 => 0x2018 | 0x92 => 0x2019 | 0x93 => 0x201C
  | 0x94 => 0x201D | 0x95 => 0x2022 | 0x96 => 0x2013 | 0x97 => 0x2014
  | 0x98 => 0xFFFD | 0x99 => 0x2122 | 0x9A => 0x0459 | 0x9B => 0x203A
  | 0x9C => 0x045A | 0x9D => 0x045C | 0x9E => 0x045B | 0x9F => 0x045F
  | 0xA0 => 0x00A0 | 0xA1 => 0x040E | 0xA2 => 0x045E | 0xA3 => 0x0408
  | 0xA4 => 0x00A4 | 0xA5 => 0x0490 | 0xA6 => 0x00A6 | 0xA7 => 0x00A7
  | 0xA8 => 0x0401 | 0xA9 => 0x00A9 | 0xAA => 0x0404 | 0xAB => 0x00AB
  | 0xAC => 0x00AC | 0xAD => 0x00AD | 0xAE => 0x00AE | 0xAF => 0x0407
  | 0xB0 => 0x00B0 | 0xB1 => 0x00B1 | 0xB2 => 0x0406 | 0xB3 => 0x0456
  | 0xB4 => 0x0491 | 0xB5 => 0x00B5 | 0xB6 => 0x00B6 | 0xB7 => 0x00B7
  | 0xB8 => 0x0451 | 0xB9 => 0x2116 | 0xBA => 0x0454 | 0xBB => 0x00BB
  | 0xBC => 0x0458 | 0xBD => 0x0405 | 0xBE => 0x0455 | 0xBF => 0x0457
  | _ => 0xFFFD

/-- Embeds `fixInvalidUTF8`: reinterpret each invalid byte as
Windows-1251 when it is at least 0x80, else replace it with a space;
fuelled worker. -/
def fixInvalidUTF8F : Nat → GoBytes → GoBytes
  | _, [] => []
  | 0, s => s
  | fuel + 1, b :: rest =>
    let rs := decodeRune (b :: rest)
    if rs.1 = 0xFFFD ∧ rs.2 = 1 then
      (if 0x80 ≤ b then encodeRune (win1251DecodeByte b) else [32]) ++
        fixInvalidUTF8F fuel rest
    else encodeRune rs.1 ++ fixInvalidUTF8F fuel ((b :: rest).drop rs.2)

/-- See `fixInvalidUTF8F`. -/
def fixInvalidUTF8 (l : GoBytes) : GoBytes := fixInvalidUTF8F l.length l

/-- Embeds `removeIllegalXMLChars`: re-encode each legal decoded rune,
replace everything else by a space; fuelled worker. -/
def removeIllegalXMLCharsF : Nat → GoBytes → GoBytes
  | _, [] => []
  | 0, s => s
  | fuel + 1, l =>
    let rs := decodeRune l
    (if isLegalXMLRune rs.1 then encodeRune rs.1 else [32]) ++
      removeIllegalXMLCharsF fuel (l.drop rs.2)

/-- See `removeIllegalXMLCharsF`. -/
def removeIllegalXMLChars (l : GoBytes) : GoBytes := removeIllegalXMLCharsF l.length l

/-- The valid-tag-start bytes of `fixMalformedTags`'s scan:
letters, `/`, `!`, `?`, `_`. -/
def validTagStart (b : Nat) : Bool :=
  (97 ≤ b && b ≤ 122) || (65 ≤ b && b ≤ 90) || b = 47 || b = 33 || b = 63 || b = 95

/-- Match size of the regexp class `[^a-zA-Z>]` at the head of `l`
(rune-based, one byte for invalid encodings, as Go regexp matches
byte slices). -/
def runeClassNoLetterGt (l : GoBytes) : Option Nat :=
  match l with
  | [] => none
  | _ :: _ =>
    let rs := decodeRune l
    if (97 ≤ rs.1 ∧ rs.1 ≤ 122) ∨ (65 ≤ rs.1 ∧ rs.1 ≤ 90) ∨ rs.1 = 62 then none
    else some rs.2

/-- Matcher for `<([0-9]|\.\.\.|--?[^a-zA-Z>])` anchored at the head:
returns the matched bytes and the remainder. -/
def tryPhase1At : GoBytes → Option (GoBytes × GoBytes)
  | [] => none
  | b :: rest =>
    if b = 60 then
      match rest with
      | [] => none
      | c :: r =>
        if isDigitByte c then some ([60, c], r)
        else if c = 46 then
          match r with
          | 46 :: 46 :: r₃ => some ([60, 46, 46, 46], r₃)
          | _ => none
        else if c = 45 then
          match r with
          | 45 :: r₂ =>
            match runeClassNoLetterGt r₂ with
            | some sz => some (60 :: 45 :: 45 :: r₂.take sz, r₂.drop sz)
            | none =>
              match runeClassNoLetterGt (45 :: r₂) with
              | some sz => some (60 :: 45 :: (45 :: r₂).take sz, (45 :: r₂).drop sz)
              | none => none
          | _ =>
            match runeClassNoLetterGt r with
            | some sz => some (60 :: 45 :: r.take sz, r.drop sz)
            | none => none
        else none
    else none

/-- First pass of `fixMalformedTags`: `ReplaceAllFunc` turning each
match `<X` into `&lt;X`; fuelled worker. -/
def fixMalformedPhase1F : Nat → GoBytes → GoBytes
  | _, [] => []
  | 0, s => s
  | fuel + 1, b :: rest =>
    match tryPhase1At (b :: rest) with
    | some (mtch, after) => (bytesOf "&lt;" ++ mtch.drop 1) ++ fixMalformedPhase1F fuel after
    | none => b :: fixMalformedPhase1F fuel rest

/-- See `fixMalformedPhase1F`. -/
def fixMalformedPhase1 (l : GoBytes) : GoBytes := fixMalformedPhase1F l.length l

/-- Second pass of `fixMalformedTags`: escape every `<` not followed by
a valid tag-start byte (including a bare trailing `<`). -/
def fixMalformedPhase2 : GoBytes → GoBytes
  | [] => []
  | b :: rest =>
    if b = 60 then
      match rest with
      | [] => bytesOf "&lt;"
      | nb :: _ =>
        if validTagStart nb then b :: fixMalformedPhase2 rest
        else bytesOf "&lt;" ++ fixMalformedPhase2 rest
    else b :: fixMalformedPhase2 rest

/-- Embeds `fixMalformedTags`. -/
def fixMalformedTags (l : GoBytes) : GoBytes := fixMalformedPhase2 (fixMalformedPhase1 l)

/-- Embeds `sanitizeFB2XML`: repair invalid UTF-8 when present, remove
illegal XML characters, escape unescaped ampersands, repair malformed
tag openings. -/
def sanitizeFB2XML (data : GoBytes) : GoBytes :=
  let d := if utf8Valid data then data else fixInvalidUTF8 data
  fixMalformedTags (fixUnescapedAmpersands (removeIllegalXMLChars d))

/-- Sanity instances of the sanitizer. -/
example : sanitizeFB2XML (bytesOf "a & b <3 c") = bytesOf "a &amp; b &lt;3 c" := by decide
example : sanitizeFB2XML (bytesOf "x<p>&amp;</p><") = bytesOf "x<p>&amp;</p>&lt;" := by decide
example : sanitizeFB2XML [0xD0] = encodeRune 0x0420 := by decide
example : sanitizeFB2XML [7] = [32] := by decide

/-- Concatenated UTF-8 encoding of a list of runes. -/
def runesFlat (rs : List Nat) : GoBytes := rs.foldr (fun r acc => encodeRune r ++ acc) []

/-- The byte list is canonical UTF-8 for XML-legal scalar values — the
invariant every sanitizer stage output satisfies. -/
def FlatLegal (l : GoBytes) : Prop :=
  ∃ rs : List Nat, l = runesFlat rs ∧ ∀ r ∈ rs, isLegalXMLRune r = true

theorem runesFlat_cons (r : Nat) (rs : List Nat) :
    runesFlat (r :: rs) = encodeRune r ++ runesFlat rs := rfl

theorem legal_scalar {r : Nat} (h : isLegalXMLRune r = true) : IsScalar r := by
  unfold isLegalXMLRune at h
  simp only [Bool.or_eq_true, Bool.and_eq_true, decide_eq_true_eq] at h
  unfold IsScalar
  omega

theorem encodeRune_ascii {r : Nat} (h : r < 0x80) : encodeRune r = [r] := by
  simp [encodeRune, h]

theorem encodeRune_ne_nil (r : Nat) : encodeRune r ≠ [] := by
  unfold encodeRune
  repeat' split
  all_goals simp

theorem encodeRune_high {r : Nat} (h : 0x80 ≤ r) : ∀ b ∈ encodeRune r, 0x80 ≤ b := by
  intro b hb
  unfold encodeRune at hb
  repeat' split at hb
  all_goals simp only [List.mem_cons, List.not_mem_nil, or_false] at hb
  all_goals omega

theorem runesFlat_ascii {a : Nat} (h : a < 0x80) (rs : List Nat) :
    runesFlat (a :: rs) = a :: runesFlat rs := by
  rw [runesFlat_cons, encodeRune_ascii h]
  rfl

theorem runesFlat_ascii_append {seg : GoBytes} (h : ∀ a ∈ seg, a < 0x80) (rs : List Nat) :
    runesFlat (seg ++ rs) = seg ++ runesFlat rs := by
  induction seg with
  | nil => rfl
  | cons a s ih =>
    have ha : a < 0x80 := h a (by simp)
    have hs : ∀ x ∈ s, x < 0x80 := fun x hx => h x (by simp [hx])
    rw [List.cons_append, runesFlat_ascii ha, ih hs, List.cons_append]

theorem decodeRune_flat {r : Nat} (hs : IsScalar r) (rs : List Nat) :
    decodeRune (runesFlat (r :: rs)) = (r, (encodeRune r).length) := by
  rw [runesFlat_cons]
  exact decodeRune_encodeRune r hs _

theorem runesFlat_drop (r : Nat) (rs : List Nat) :
    (runesFlat (r :: rs)).drop (encodeRune r).length = runesFlat rs := by
  rw [runesFlat_cons]
  exact List.drop_left _ _

theorem flat_not_error {r : Nat} : ¬ (r = 0xFFFD ∧ (encodeRune r).length = 1) := by
  rintro ⟨rfl, h⟩
  revert h
  decide

theorem encodeRune_len_pos (r : Nat) : 1 ≤ (encodeRune r).length := by
  cases he : encodeRune r with
  | nil => exact absurd he (encodeRune_ne_nil r)
  | cons a t => simp

theorem runesFlat_cons_ne_nil (r : Nat) (rs : List Nat) : runesFlat (r :: rs) ≠ [] := by
  rw [runesFlat_cons]
  intro hc
  exact encodeRune_ne_nil r (List.append_eq_nil.mp hc).1

theorem utf8ValidF_flat :
    ∀ (rs : List Nat), (∀ r ∈ rs, IsScalar r) →
    ∀ fuel, (runesFlat rs).length ≤ fuel → utf8ValidF fuel (runesFlat rs) = true := by
  intro rs
  induction rs with
  | nil => intro _ fuel _; cases fuel <;> rfl
  | cons r rs ih =>
    intro hsc fuel hf
    have hs : IsScalar r := hsc r (by simp)
    have hlen : (runesFlat (r :: rs)).length = (encodeRune r).length + (runesFlat rs).length := by
      rw [runesFlat_cons]
      simp
    obtain ⟨b, t, hbt⟩ : ∃ b t, runesFlat (r :: rs) = b :: t := by
      cases hc : runesFlat (r :: rs) with
      | nil => exact absurd hc (runesFlat_cons_ne_nil r rs)
      | cons b t => exact ⟨b, t, rfl⟩
    cases fuel with
    | zero =>
      exfalso
      rw [hbt] at hf
      simp at hf
    | succ fuel =>
      rw [hbt, utf8ValidF]
      have hdec : decodeRune (b :: t) = (r, (encodeRune r).length) := by
        rw [← hbt]
        exact decodeRune_flat hs rs
      rw [hdec]
      dsimp only
      rw [if_neg flat_not_error]
      have hdrop : (b :: t).drop (encodeRune r).length = runesFlat rs := by
        rw [← hbt]
        exact runesFlat_drop r rs
      rw [hdrop]
      exact ih (fun x hx => hsc x (by simp [hx])) fuel
        (by rw [hbt] at hlen hf; have := encodeRune_len_pos r; omega)
      simp

theorem removeIllegalF_flat_id :
    ∀ (rs : List Nat), (∀ r ∈ rs, isLegalXMLRune r = true) →
    ∀ fuel, (runesFlat rs).length ≤ fuel →
    removeIllegalXMLCharsF fuel (runesFlat rs) = runesFlat rs := by
  intro rs
  induction rs with
  | nil => intro _ fuel _; cases fuel <;> rfl
  | cons r rs ih =>
    intro hleg fuel hf
    have hlr : isLegalXMLRune r = true := hleg r (by simp)
    have hs : IsScalar r := legal_scalar hlr
    have hlen : (runesFlat (r :: rs)).length = (encodeRune r).length + (runesFlat rs).length := by
      rw [runesFlat_cons]
      simp
    obtain ⟨b, t, hbt⟩ : ∃ b t, runesFlat (r :: rs) = b :: t := by
      cases hc : runesFlat (r :: rs) with
      | nil => exact absurd hc (runesFlat_cons_ne_nil r rs)
      | cons b t => exact ⟨b, t, rfl⟩
    cases fuel with
    | zero =>
      exfalso
      rw [hbt] at hf
      simp at hf
    | succ fuel =>
      rw [hbt, removeIllegalXMLCharsF]
      have hdec : decodeRune (b :: t) = (r, (encodeRune r).length) := by
        rw [← hbt]
        exact decodeRune_flat hs rs
      rw [hdec]
      dsimp only
      have hdrop : (b :: t).drop (encodeRune r).length = runesFlat rs := by
        rw [← hbt]
        exact runesFlat_drop r rs
      rw [hdrop, if_pos hlr,
        ih (fun x hx => hleg x (by simp [hx])) fuel
          (by rw [hbt] at hlen hf; have := encodeRune_len_pos r; omega)]
      rw [← hbt, runesFlat_cons]
      simp

theorem removeIllegalF_flatLegal :
    ∀ fuel (l : GoBytes), l.length ≤ fuel → FlatLegal (removeIllegalXMLCharsF fuel l) := by
  intro fuel
  induction fuel with
  | zero =>
    intro l hl
    have : l = [] := List.length_eq_zero.mp (by omega)
    subst this
    exact ⟨[], rfl, by simp⟩
  | succ fuel ih =>
    intro l hl
    cases l with
    | nil => exact ⟨[], rfl, by simp⟩
    | cons b t =>
      rw [removeIllegalXMLCharsF]
      obtain ⟨r, sz, hr⟩ : ∃ r sz, decodeRune (b :: t) = (r, sz) := ⟨_, _, rfl⟩
      have hsz := @decodeRune_size (b :: t) (by simp)
      rw [hr] at hsz
      simp only [List.length_cons] at hsz hl
      rw [hr]
      dsimp only
      obtain ⟨rs', h1, h2⟩ := ih ((b :: t).drop sz)
        (by simp only [List.length_drop, List.length_cons]; omega)
      by_cases hleg : isLegalXMLRune r = true
      · rw [if_pos hleg, h1, ← runesFlat_cons]
        refine ⟨r :: rs', rfl, ?_⟩
        intro x hx
        rcases List.mem_cons.mp hx with rfl | hx
        · exact hleg
        · exact h2 x hx
      · rw [if_neg hleg, h1]
        have h32 : ([32] : GoBytes) = encodeRune 32 := by decide
        rw [h32, ← runesFlat_cons]
        refine ⟨32 :: rs', rfl, ?_⟩
        intro x hx
        rcases List.mem_cons.mp hx with rfl | hx
        · decide
        · exact h2 x hx
      simp

/-- One sanitizer pass that copies bytes and may replace the trigger
byte `t` by the segment `seg`: covers the ampersand pass and both
malformed-tag passes. -/
inductive ExpandBy (t : Nat) (seg : GoBytes) : GoBytes → GoBytes → Prop
  | nil : ExpandBy t seg [] []
  | copy (b : Nat) {l o : GoBytes} : ExpandBy t seg l o → ExpandBy t seg (b :: l) (b :: o)
  | repl {l o : GoBytes} : ExpandBy t seg l o → ExpandBy t seg (t :: l) (seg ++ o)

theorem expandBy_refl (t : Nat) (seg : GoBytes) : ∀ l, ExpandBy t seg l l := by
  intro l
  induction l with
  | nil => exact .nil
  | cons b l ih => exact .copy b ih

theorem expandBy_append_left {t : Nat} {seg q o : GoBytes}
    (h : ExpandBy t seg q o) : ∀ p, ExpandBy t seg (p ++ q) (p ++ o) := by
  intro p
  induction p with
  | nil => simpa using h
  | cons b p ih => exact .copy b ih

theorem expandBy_peel {t : Nat} {seg : GoBytes} :
    ∀ (p q o : GoBytes), t ∉ p → ExpandBy t seg (p ++ q) o →
    ∃ o', o = p ++ o' ∧ ExpandBy t seg q o' := by
  intro p
  induction p with
  | nil => intro q o _ h; exact ⟨o, rfl, h⟩
  | cons a p ih =>
    intro q o ha h
    cases h with
    | copy b h' =>
      obtain ⟨o', rfl, h₂⟩ := ih q _ (fun hm => ha (List.mem_cons_of_mem _ hm)) h'
      exact ⟨o', rfl, h₂⟩
    | repl h' =>
      exact absurd (List.mem_cons_self _ _) ha

theorem expandBy_flatLegal {t : Nat} {seg : GoBytes}
    (ht : t < 0x80)
    (hseg : ∀ a ∈ seg, a < 0x80 ∧ isLegalXMLRune a = true) :
    ∀ (rs : List Nat) (o : GoBytes), (∀ r ∈ rs, isLegalXMLRune r = true) →
    ExpandBy t seg (runesFlat rs) o → FlatLegal o := by
  intro rs
  induction rs with
  | nil =>
    intro o _ h
    cases h
    exact ⟨[], rfl, by simp⟩
  | cons r rs ih =>
    intro o hleg h
    have hlr : isLegalXMLRune r = true := hleg r (by simp)
    have hrest : ∀ x ∈ rs, isLegalXMLRune x = true := fun x hx => hleg x (by simp [hx])
    by_cases hra : r < 0x80
    · rw [runesFlat_ascii hra] at h
      cases h with
      | copy b h' =>
        obtain ⟨rs', h1, h2⟩ := ih _ hrest h'
        refine ⟨r :: rs', by rw [h1, runesFlat_ascii hra], ?_⟩
        intro x hx
        rcases List.mem_cons.mp hx with rfl | hx
        · exact hlr
        · exact h2 x hx
      | repl h' =>
        obtain ⟨rs', h1, h2⟩ := ih _ hrest h'
        refine ⟨seg ++ rs', ?_, ?_⟩
        · rw [h1, runesFlat_ascii_append (fun a ha => (hseg a ha).1)]
        · intro x hx
          rcases List.mem_append.mp hx with hx | hx
          · exact (hseg x hx).2
          · exact h2 x hx
    · rw [runesFlat_cons] at h
      have hnm : t ∉ encodeRune r := by
        intro hm
        have := encodeRune_high (by omega) t hm
        omega
      obtain ⟨o', rfl, h₂⟩ := expandBy_peel _ _ _ hnm h
      obtain ⟨rs', h1, h2⟩ := ih _ hrest h₂
      refine ⟨r :: rs', by rw [h1, runesFlat_cons], ?_⟩
      intro x hx
      rcases List.mem_cons.mp hx with rfl | hx
      · exact hlr
      · exact h2 x hx

theorem bytesOf_amp_eq : bytesOf "&amp;" = [38, 97, 109, 112, 59] := by decide

theorem bytesOf_lt_eq : bytesOf "&lt;" = [38, 108, 116, 59] := by decide

theorem fixAmp_expand : ∀ l, ExpandBy 38 (bytesOf "&amp;") l (fixUnescapedAmpersands l) := by
  intro l
  induction l with
  | nil => exact .nil
  | cons b rest ih =>
    rw [fixUnescapedAmpersands]
    by_cases hb : b = 38
    · subst hb
      by_cases hg : isGoEntityStart (38 :: rest) = true
      · rw [if_pos rfl, if_pos hg]
        exact .copy 38 ih
      · rw [if_pos rfl, if_neg hg]
        exact .repl ih
    · rw [if_neg hb]
      exact .copy b ih

theorem phase2_expand : ∀ l, ExpandBy 60 (bytesOf "&lt;") l (fixMalformedPhase2 l) := by
  intro l
  induction l with
  | nil => exact .nil
  | cons b rest ih =>
    rw [fixMalformedPhase2.eq_def]
    dsimp only
    by_cases hb : b = 60
    · subst hb
      rw [if_pos rfl]
      cases rest with
      | nil =>
        have h : ExpandBy 60 (bytesOf "&lt;") [60] (bytesOf "&lt;" ++ []) := .repl .nil
        simpa using h
      | cons nb r2 =>
        dsimp only
        by_cases hv : validTagStart nb = true
        · rw [if_pos hv]
          exact .copy 60 ih
        · rw [if_neg hv]
          exact .repl ih
    · rw [if_neg hb]
      exact .copy b ih

theorem tryPhase1At_none_of_ne {b : Nat} (hb : b ≠ 60) (rest : GoBytes) :
    tryPhase1At (b :: rest) = none := by
  simp [tryPhase1At, hb]

theorem mem_of_decomp {x : Nat} {tl p q : GoBytes} (h : tl = p ++ x :: q) : x ∈ tl := by
  subst h
  simp

theorem decomp_singleton {c x : Nat} {p q : GoBytes} (h : [c] = p ++ x :: q) : q = [] := by
  have := congrArg List.length h
  simp at this
  exact List.length_eq_zero.mp (by omega)

theorem decomp_cons_ne {a x : Nat} {tl p q : GoBytes} (hax : a ≠ x)
    (h : a :: tl = p ++ x :: q) : ∃ p', p = a :: p' ∧ tl = p' ++ x :: q := by
  cases p with
  | nil =>
    simp only [List.nil_append, List.cons.injEq] at h
    exact absurd h.1 hax
  | cons b p' =>
    simp only [List.cons_append, List.cons.injEq] at h
    exact ⟨p', by rw [h.1], h.2⟩

theorem runeClass_struct {l : GoBytes} {sz : Nat} (h : runeClassNoLetterGt l = some sz) :
    1 ≤ sz ∧ sz ≤ l.length ∧ ∀ p₁ q₁, l.take sz = p₁ ++ 38 :: q₁ → q₁ = [] := by
  cases l with
  | nil => simp [runeClassNoLetterGt] at h
  | cons b t =>
    unfold runeClassNoLetterGt at h
    dsimp only at h
    split at h
    · exact absurd h (by simp)
    · have hsz : (decodeRune (b :: t)).2 = sz := by simpa using h
      have hb := @decodeRune_size (b :: t) (by simp)
      rw [hsz] at hb
      simp only [List.length_cons] at hb
      refine ⟨by omega, by simp; omega, ?_⟩
      intro p₁ q₁ hq
      by_cases h1 : sz = 1
      · subst h1
        have htake : (b :: t).take 1 = [b] := by simp
        rw [htake] at hq
        exact decomp_singleton hq
      · obtain ⟨r, hr⟩ : ∃ r, decodeRune (b :: t) = (r, sz) := by
          refine ⟨(decodeRune (b :: t)).1, ?_⟩
          rw [← hsz]
        have hne : ¬ (r = 0xFFFD ∧ sz = 1) := fun hc => h1 hc.2
        have hrt := decodeRune_roundtrip hr hne (by simp)
        have hlentake : ((b :: t).take sz).length = sz := by
          simp only [List.length_take, List.length_cons]
          omega
        have hlen : (encodeRune r).length = sz := by
          rw [← hrt.1]
          exact hlentake
        have hr80 : 0x80 ≤ r := by
          by_contra hc
          push_neg at hc
          rw [encodeRune_ascii hc] at hlen
          simp at hlen
          omega
        have h38 : (38 : Nat) ∉ (b :: t).take sz := by
          rw [hrt.1]
          intro hm
          have := encodeRune_high hr80 38 hm
          omega
        exact absurd (mem_of_decomp hq) h38


theorem tryPhase1At_structure {s mtch after : GoBytes}
    (h : tryPhase1At s = some (mtch, after)) :
    s = mtch ++ after ∧ 2 ≤ mtch.length ∧
    ∃ tl, mtch = 60 :: tl ∧ ∀ p₁ q₁, tl = p₁ ++ 38 :: q₁ → q₁ = [] := by
  match s with
  | [] => simp [tryPhase1At] at h
  | b :: rest =>
    by_cases hb : b = 60
    case neg => rw [tryPhase1At_none_of_ne hb] at h; cases h
    subst hb
    unfold tryPhase1At at h
    dsimp only at h
    rw [if_pos rfl] at h
    match rest with
    | [] => cases h
    | c :: r =>
      dsimp only at h
      by_cases hd : isDigitByte c = true
      · rw [if_pos hd] at h
        simp only [Option.some.injEq, Prod.mk.injEq] at h
        obtain ⟨h1, h2⟩ := h
        subst h1
        subst h2
        refine ⟨rfl, by simp, [c], rfl, ?_⟩
        intro p₁ q₁ hq
        exact decomp_singleton hq
      · rw [if_neg hd] at h
        by_cases hc46 : c = 46
        · subst hc46
          rw [if_pos rfl] at h
          split at h
          · simp only [Option.some.injEq, Prod.mk.injEq] at h
            obtain ⟨h1, h2⟩ := h
            subst h1
            subst h2
            refine ⟨rfl, by simp, [46, 46, 46], rfl, ?_⟩
            intro p₁ q₁ hq
            have hm := mem_of_decomp hq
            simp at hm
          · cases h
        · rw [if_neg hc46] at h
          by_cases hc45 : c = 45
          · subst hc45
            rw [if_pos rfl] at h
            split at h
            · rename_i r₂
              split at h
              · rename_i sz hcl
                obtain ⟨h1sz, h2sz, h3sz⟩ := runeClass_struct hcl
                simp only [Option.some.injEq, Prod.mk.injEq] at h
                obtain ⟨h1, h2⟩ := h
                subst h1
                subst h2
                refine ⟨by simp, by simp, 45 :: 45 :: r₂.take sz, rfl, ?_⟩
                intro p₁ q₁ hq
                obtain ⟨p₂, rfl, hq₂⟩ := decomp_cons_ne (by decide) hq
                obtain ⟨p₃, rfl, hq₃⟩ := decomp_cons_ne (by decide) hq₂
                exact h3sz p₃ q₁ hq₃
              · split at h
                · rename_i sz hcl2
                  obtain ⟨h1sz, h2sz, h3sz⟩ := runeClass_struct hcl2
                  simp only [Option.some.injEq, Prod.mk.injEq] at h
                  obtain ⟨h1, h2⟩ := h
                  subst h1
                  subst h2
                  refine ⟨by simp, by simp, 45 :: (45 :: r₂).take sz, rfl, ?_⟩
                  intro p₁ q₁ hq
                  obtain ⟨p₂, rfl, hq₂⟩ := decomp_cons_ne (by decide) hq
                  exact h3sz p₂ q₁ hq₂
                · cases h
            · split at h
              · rename_i sz hcl
                obtain ⟨h1sz, h2sz, h3sz⟩ := runeClass_struct hcl
                simp only [Option.some.injEq, Prod.mk.injEq] at h
                obtain ⟨h1, h2⟩ := h
                subst h1
                subst h2
                refine ⟨?_, by simp, 45 :: r.take sz, rfl, ?_⟩
                · simp
                · intro p₁ q₁ hq
                  obtain ⟨p₂, rfl, hq₂⟩ := decomp_cons_ne (by decide) hq
                  exact h3sz p₂ q₁ hq₂
              · cases h
          · rw [if_neg hc45] at h
            cases h

theorem phase1F_expand : ∀ fuel l, ExpandBy 60 (bytesOf "&lt;") l (fixMalformedPhase1F fuel l) := by
  intro fuel
  induction fuel with
  | zero =>
    intro l
    cases l with
    | nil => exact .nil
    | cons b t => exact expandBy_refl _ _ _
  | succ fuel ih =>
    intro l
    cases l with
    | nil => exact .nil
    | cons b t =>
      rw [fixMalformedPhase1F]
      cases htp : tryPhase1At (b :: t) with
      | none => exact .copy b (ih t)
      | some ma =>
        obtain ⟨mtch, after⟩ := ma
        obtain ⟨hs, hlen, tl, rfl, h38⟩ := tryPhase1At_structure htp
        have hbt : b :: t = 60 :: (tl ++ after) := by simpa using hs
        rw [hbt]
        dsimp only
        have hout : bytesOf "&lt;" ++ (60 :: tl).drop 1 ++ fixMalformedPhase1F fuel after
            = bytesOf "&lt;" ++ (tl ++ fixMalformedPhase1F fuel after) := by
          simp
        rw [hout]
        exact .repl (expandBy_append_left (ih after) tl)

theorem phase1_expand (l : GoBytes) : ExpandBy 60 (bytesOf "&lt;") l (fixMalformedPhase1 l) :=
  phase1F_expand _ l

/-- Every ampersand in the byte list begins a valid entity. -/
def AmpOK (l : GoBytes) : Prop :=
  ∀ p q, l = p ++ 38 :: q → isGoEntityStart (38 :: q) = true

theorem ampOK_nil : AmpOK [] := by
  intro p q h
  simp at h

theorem ampOK_tail {b : Nat} {l : GoBytes} (h : AmpOK (b :: l)) : AmpOK l := by
  intro p q hq
  exact h (b :: p) q (by rw [hq]; rfl)

theorem ampOK_cons_of {b : Nat} (hb : b ≠ 38) {l : GoBytes} (h : AmpOK l) : AmpOK (b :: l) := by
  intro p q hq
  cases p with
  | nil =>
    simp only [List.nil_append, List.cons.injEq] at hq
    exact absurd hq.1 hb
  | cons a p' =>
    simp only [List.cons_append, List.cons.injEq] at hq
    exact h p' q hq.2

theorem ampOK_cons38 {l : GoBytes} (hg : isGoEntityStart (38 :: l) = true) (h : AmpOK l) :
    AmpOK (38 :: l) := by
  intro p q hq
  cases p with
  | nil =>
    simp only [List.nil_append, List.cons.injEq] at hq
    rw [← hq.2]
    exact hg
  | cons a p' =>
    simp only [List.cons_append, List.cons.injEq] at hq
    exact h p' q hq.2

theorem ampOK_pre {pre : GoBytes} (hpre : (38 : Nat) ∉ pre) {l : GoBytes} (h : AmpOK l) :
    AmpOK (pre ++ l) := by
  induction pre with
  | nil => exact h
  | cons a pre ih =>
    have ha : a ≠ 38 := fun hc => hpre (by simp [hc])
    exact ampOK_cons_of ha (ih (fun hm => hpre (by simp [hm])))

theorem ampOK_drop {pre l : GoBytes} (h : AmpOK (pre ++ l)) : AmpOK l := by
  induction pre with
  | nil => exact h
  | cons a pre ih => exact ih (ampOK_tail h)

theorem entityStart_amp (X : GoBytes) :
    isGoEntityStart (38 :: 97 :: 109 :: 112 :: 59 :: X) = true := by
  have hp : bytesOf "&amp;" <+: (38 :: 97 :: 109 :: 112 :: 59 :: X) := by
    rw [bytesOf_amp_eq]
    exact ⟨X, rfl⟩
  unfold isGoEntityStart matchNamedEntity startsWithB
  simp only [Bool.or_eq_true, decide_eq_true_eq]
  tauto

theorem entityStart_lt (X : GoBytes) :
    isGoEntityStart (38 :: 108 :: 116 :: 59 :: X) = true := by
  have hp : bytesOf "&lt;" <+: (38 :: 108 :: 116 :: 59 :: X) := by
    rw [bytesOf_lt_eq]
    exact ⟨X, rfl⟩
  unfold isGoEntityStart matchNamedEntity startsWithB
  simp only [Bool.or_eq_true, decide_eq_true_eq]
  tauto

theorem entityStart_gt (X : GoBytes) :
    isGoEntityStart (38 :: 103 :: 116 :: 59 :: X) = true := by
  have hp : bytesOf "&gt;" <+: (38 :: 103 :: 116 :: 59 :: X) := by
    have he : bytesOf "&gt;" = [38, 103, 116, 59] := by decide
    rw [he]
    exact ⟨X, rfl⟩
  unfold isGoEntityStart matchNamedEntity startsWithB
  simp only [Bool.or_eq_true, decide_eq_true_eq]
  tauto

theorem entityStart_quot (X : GoBytes) :
    isGoEntityStart (38 :: 113 :: 117 :: 111 :: 116 :: 59 :: X) = true := by
  have hp : bytesOf "&quot;" <+: (38 :: 113 :: 117 :: 111 :: 116 :: 59 :: X) := by
    have he : bytesOf "&quot;" = [38, 113, 117, 111, 116, 59] := by decide
    rw [he]
    exact ⟨X, rfl⟩
  unfold isGoEntityStart matchNamedEntity startsWithB
  simp only [Bool.or_eq_true, decide_eq_true_eq]
  tauto

theorem entityStart_apos (X : GoBytes) :
    isGoEntityStart (38 :: 97 :: 112 :: 111 :: 115 :: 59 :: X) = true := by
  have hp : bytesOf "&apos;" <+: (38 :: 97 :: 112 :: 111 :: 115 :: 59 :: X) := by
    have he : bytesOf "&apos;" = [38, 97, 112, 111, 115, 59] := by decide
    rw [he]
    exact ⟨X, rfl⟩
  unfold isGoEntityStart matchNamedEntity startsWithB
  simp only [Bool.or_eq_true, decide_eq_true_eq]
  tauto

theorem isDigitByte_range {b : Nat} (h : isDigitByte b = true) : b ≠ 38 ∧ b ≠ 60 := by
  unfold isDigitByte at h
  simp only [Bool.and_eq_true, decide_eq_true_eq] at h
  omega

theorem isHexByte_range {b : Nat} (h : isHexByte b = true) : b ≠ 38 ∧ b ≠ 60 := by
  unfold isHexByte isDigitByte at h
  simp only [Bool.or_eq_true, Bool.and_eq_true, decide_eq_true_eq] at h
  omega

theorem entityStart_decomp {rest : GoBytes} (h : isGoEntityStart (38 :: rest) = true) :
    ∃ body rest₂, rest = body ++ rest₂ ∧ (38 : Nat) ∉ body ∧ (60 : Nat) ∉ body ∧
      ∀ X, isGoEntityStart (38 :: (body ++ X)) = true := by
  unfold isGoEntityStart at h
  simp only [Bool.or_eq_true] at h
  rcases h with (hnm | hdec) | hhex
  · rw [matchNamedEntity_iff] at hnm
    obtain ⟨nm, hnm5, t, hpre⟩ := hnm
    simp only [List.mem_cons, List.mem_singleton, List.not_mem_nil, or_false] at hnm5
    rcases hnm5 with rfl | rfl | rfl | rfl | rfl
    · refine ⟨[97, 109, 112, 59], t, ?_, by decide, by decide, fun X => entityStart_amp X⟩
      have hb : bytesOf "amp" = [97, 109, 112] := by decide
      rw [hb] at hpre
      simpa using hpre.symm
    · refine ⟨[108, 116, 59], t, ?_, by decide, by decide, fun X => entityStart_lt X⟩
      have hb : bytesOf "lt" = [108, 116] := by decide
      rw [hb] at hpre
      simpa using hpre.symm
    · refine ⟨[103, 116, 59], t, ?_, by decide, by decide, fun X => entityStart_gt X⟩
      have hb : bytesOf "gt" = [103, 116] := by decide
      rw [hb] at hpre
      simpa using hpre.symm
    · refine ⟨[113, 117, 111, 116, 59], t, ?_, by decide, by decide, fun X => entityStart_quot X⟩
      have hb : bytesOf "quot" = [113, 117, 111, 116] := by decide
      rw [hb] at hpre
      simpa using hpre.symm
    · refine ⟨[97, 112, 111, 115, 59], t, ?_, by decide, by decide, fun X => entityStart_apos X⟩
      have hb : bytesOf "apos" = [97, 112, 111, 115] := by decide
      rw [hb] at hpre
      simpa using hpre.symm
  · rw [matchDecEntity_iff] at hdec
    obtain ⟨ds, hne, hall, t, hpre⟩ := hdec
    refine ⟨35 :: (ds ++ [59]), t, ?_, ?_, ?_, ?_⟩
    · simpa [List.cons_append] using hpre.symm
    · intro hm
      rcases List.mem_cons.mp hm with h35 | hm
      · exact absurd h35 (by decide)
      · rcases List.mem_append.mp hm with hds | h59
        · exact (isDigitByte_range (hall _ hds)).1 rfl
        · exact absurd (List.mem_singleton.mp h59) (by decide)
    · intro hm
      rcases List.mem_cons.mp hm with h35 | hm
      · exact absurd h35 (by decide)
      · rcases List.mem_append.mp hm with hds | h59
        · exact (isDigitByte_range (hall _ hds)).2 rfl
        · exact absurd (List.mem_singleton.mp h59) (by decide)
    · intro X
      unfold isGoEntityStart
      simp only [Bool.or_eq_true]
      left
      right
      rw [matchDecEntity_iff]
      exact ⟨ds, hne, hall, X, by simp⟩
  · rw [matchHexEntity_iff] at hhex
    obtain ⟨hxs, hne, hall, t, hpre⟩ := hhex
    refine ⟨35 :: 120 :: (hxs ++ [59]), t, ?_, ?_, ?_, ?_⟩
    · simpa [List.cons_append] using hpre.symm
    · intro hm
      rcases List.mem_cons.mp hm with h35 | hm
      · exact absurd h35 (by decide)
      · rcases List.mem_cons.mp hm with h120 | hm
        · exact absurd h120 (by decide)
        · rcases List.mem_append.mp hm with hds | h59
          · exact (isHexByte_range (hall _ hds)).1 rfl
          · exact absurd (List.mem_singleton.mp h59) (by decide)
    · intro hm
      rcases List.mem_cons.mp hm with h35 | hm
      · exact absurd h35 (by decide)
      · rcases List.mem_cons.mp hm with h120 | hm
        · exact absurd h120 (by decide)
        · rcases List.mem_append.mp hm with hds | h59
          · exact (isHexByte_range (hall _ hds)).2 rfl
          · exact absurd (List.mem_singleton.mp h59) (by decide)
    · intro X
      unfold isGoEntityStart
      simp only [Bool.or_eq_true]
      right
      rw [matchHexEntity_iff]
      exact ⟨hxs, hne, hall, X, by simp⟩

theorem fixAmp_skip {p : GoBytes} (hp : (38 : Nat) ∉ p) :
    ∀ q, fixUnescapedAmpersands (p ++ q) = p ++ fixUnescapedAmpersands q := by
  induction p with
  | nil => intro q; rfl
  | cons a p ih =>
    intro q
    have ha : a ≠ 38 := fun hc => hp (by simp [hc])
    rw [List.cons_append, fixUnescapedAmpersands, if_neg ha,
      ih (fun hm => hp (by simp [hm])) q, List.cons_append]

theorem fixAmp_ampOK : ∀ l, AmpOK (fixUnescapedAmpersands l) := by
  intro l
  induction l with
  | nil => exact ampOK_nil
  | cons b rest ih =>
    rw [fixUnescapedAmpersands]
    by_cases hb : b = 38
    · subst hb
      by_cases hg : isGoEntityStart (38 :: rest) = true
      · rw [if_pos rfl, if_pos hg]
        obtain ⟨body, rest₂, rfl, h38, h60, hX⟩ := entityStart_decomp hg
        have hskip := fixAmp_skip h38 rest₂
        rw [hskip]
        exact ampOK_cons38 (hX _) (by rw [← hskip]; exact ih)
      · rw [if_pos rfl, if_neg hg, bytesOf_amp_eq]
        exact ampOK_cons38 (entityStart_amp _) (ampOK_pre (by decide) ih)
    · rw [if_neg hb]
      exact ampOK_cons_of hb ih

theorem fixAmp_id_of_ampOK : ∀ l, AmpOK l → fixUnescapedAmpersands l = l := by
  intro l
  induction l with
  | nil => intro _; rfl
  | cons b rest ih =>
    intro h
    rw [fixUnescapedAmpersands]
    by_cases hb : b = 38
    · subst hb
      have hg : isGoEntityStart (38 :: rest) = true := h [] rest rfl
      rw [if_pos rfl, if_pos hg, ih (ampOK_tail h)]
    · rw [if_neg hb, ih (ampOK_tail h)]

/-- Every `<` in the byte list is followed by a valid tag-start byte. -/
def LtOK (l : GoBytes) : Prop :=
  ∀ p q, l = p ++ 60 :: q → ∃ nb q₂, q = nb :: q₂ ∧ validTagStart nb = true

theorem ltOK_nil : LtOK [] := by
  intro p q h
  simp at h

theorem ltOK_tail {b : Nat} {l : GoBytes} (h : LtOK (b :: l)) : LtOK l := by
  intro p q hq
  exact h (b :: p) q (by rw [hq]; rfl)

theorem ltOK_cons_of {b : Nat} (hb : b ≠ 60) {l : GoBytes} (h : LtOK l) : LtOK (b :: l) := by
  intro p q hq
  cases p with
  | nil =>
    simp only [List.nil_append, List.cons.injEq] at hq
    exact absurd hq.1 hb
  | cons a p' =>
    simp only [List.cons_append, List.cons.injEq] at hq
    exact h p' q hq.2

theorem ltOK_cons60 {nb : Nat} {l : GoBytes} (hv : validTagStart nb = true)
    (h : LtOK (nb :: l)) : LtOK (60 :: nb :: l) := by
  intro p q hq
  cases p with
  | nil =>
    simp only [List.nil_append, List.cons.injEq] at hq
    exact ⟨nb, l, hq.2.symm, hv⟩
  | cons a p' =>
    simp only [List.cons_append, List.cons.injEq] at hq
    exact h p' q hq.2

theorem ltOK_pre {pre : GoBytes} (hpre : (60 : Nat) ∉ pre) {l : GoBytes} (h : LtOK l) :
    LtOK (pre ++ l) := by
  induction pre with
  | nil => exact h
  | cons a pre ih =>
    have ha : a ≠ 60 := fun hc => hpre (by simp [hc])
    exact ltOK_cons_of ha (ih (fun hm => hpre (by simp [hm])))

theorem validTagStart_60 : validTagStart 60 = false := by decide

theorem validTagStart_not_special {nb : Nat} (h : validTagStart nb = true) :
    ¬ isDigitByte nb = true ∧ nb ≠ 46 ∧ nb ≠ 45 := by
  unfold validTagStart at h
  unfold isDigitByte
  simp only [Bool.or_eq_true, Bool.and_eq_true, decide_eq_true_eq] at h ⊢
  omega

theorem phase2_skip {p : GoBytes} (hp : (60 : Nat) ∉ p) :
    ∀ q, fixMalformedPhase2 (p ++ q) = p ++ fixMalformedPhase2 q := by
  induction p with
  | nil => intro q; rfl
  | cons a p ih =>
    intro q
    have ha : a ≠ 60 := fun hc => hp (by simp [hc])
    rw [List.cons_append, fixMalformedPhase2.eq_def]
    dsimp only
    rw [if_neg ha, ih (fun hm => hp (by simp [hm])) q, List.cons_append]

theorem phase2_ltOK : ∀ l, LtOK (fixMalformedPhase2 l) := by
  intro l
  induction l with
  | nil => exact ltOK_nil
  | cons b rest ih =>
    rw [fixMalformedPhase2.eq_def]
    dsimp only
    by_cases hb : b = 60
    · subst hb
      rw [if_pos rfl]
      cases rest with
      | nil =>
        rw [bytesOf_lt_eq]
        exact (by simpa using @ltOK_pre [38, 108, 116, 59] (by decide) [] ltOK_nil)
      | cons nb r2 =>
        dsimp only
        by_cases hv : validTagStart nb = true
        · rw [if_pos hv]
          have hnb : nb ≠ 60 := fun hc => by rw [hc] at hv; exact absurd hv (by decide)
          have hstep : fixMalformedPhase2 (nb :: r2) = nb :: fixMalformedPhase2 r2 := by
            rw [fixMalformedPhase2.eq_def]
            dsimp only
            rw [if_neg hnb]
          rw [hstep]
          exact ltOK_cons60 hv (by rw [← hstep]; exact ih)
        · rw [if_neg hv, bytesOf_lt_eq]
          exact ltOK_pre (by decide) ih
    · rw [if_neg hb]
      exact ltOK_cons_of hb ih

theorem phase2_id_of_ltOK : ∀ l, LtOK l → fixMalformedPhase2 l = l := by
  intro l
  induction l with
  | nil => intro _; rfl
  | cons b rest ih =>
    intro h
    rw [fixMalformedPhase2.eq_def]
    dsimp only
    by_cases hb : b = 60
    · subst hb
      obtain ⟨nb, q₂, rfl, hv⟩ := h [] rest rfl
      dsimp only
      rw [if_pos rfl, if_pos hv, ih (ltOK_tail h)]
    · rw [if_neg hb, ih (ltOK_tail h)]

theorem phase1F_id_of_ltOK : ∀ fuel l, LtOK l → fixMalformedPhase1F fuel l = l := by
  intro fuel
  induction fuel with
  | zero => intro l _; cases l <;> rfl
  | succ fuel ih =>
    intro l h
    cases l with
    | nil => rfl
    | cons b t =>
      have htp : tryPhase1At (b :: t) = none := by
        by_cases hb : b = 60
        · subst hb
          obtain ⟨nb, q₂, rfl, hv⟩ := h [] t rfl
          obtain ⟨h1, h2, h3⟩ := validTagStart_not_special hv
          unfold tryPhase1At
          dsimp only
          rw [if_pos rfl]
          rw [if_neg h1, if_neg h2, if_neg h3]
        · exact tryPhase1At_none_of_ne hb t
      rw [fixMalformedPhase1F, htp]
      rw [ih t (ltOK_tail h)]

theorem phase2_ampOK : ∀ l, AmpOK l → AmpOK (fixMalformedPhase2 l) := by
  intro l
  induction l with
  | nil => intro _; exact ampOK_nil
  | cons b rest ih =>
    intro h
    rw [fixMalformedPhase2.eq_def]
    dsimp only
    by_cases hb : b = 60
    · subst hb
      rw [if_pos rfl]
      cases rest with
      | nil =>
        rw [bytesOf_lt_eq]
        exact ampOK_cons38 (entityStart_lt [])
          (by simpa using @ampOK_pre [108, 116, 59] (by decide) [] ampOK_nil)
      | cons nb r2 =>
        dsimp only
        by_cases hv : validTagStart nb = true
        · rw [if_pos hv]
          exact ampOK_cons_of (by decide) (ih (ampOK_tail h))
        · rw [if_neg hv, bytesOf_lt_eq]
          exact ampOK_cons38 (entityStart_lt _) (ampOK_pre (by decide) (ih (ampOK_tail h)))
    · by_cases hb38 : b = 38
      · subst hb38
        rw [if_neg hb]
        have hg : isGoEntityStart (38 :: rest) = true := h [] rest rfl
        obtain ⟨body, rest₂, rfl, h38, h60, hX⟩ := entityStart_decomp hg
        have hskip := phase2_skip h60 rest₂
        rw [hskip]
        exact ampOK_cons38 (hX _) (by rw [← hskip]; exact ih (ampOK_tail h))
      · rw [if_neg hb]
        exact ampOK_cons_of hb38 (ih (ampOK_tail h))

theorem phase1F_pref {p : GoBytes} (hp : (60 : Nat) ∉ p) :
    ∀ fuel q, ∃ X, fixMalformedPhase1F fuel (p ++ q) = p ++ X := by
  induction p with
  | nil => intro fuel q; exact ⟨_, rfl⟩
  | cons a p ih =>
    intro fuel q
    have ha : a ≠ 60 := fun hc => hp (by simp [hc])
    cases fuel with
    | zero => exact ⟨q, rfl⟩
    | succ fuel =>
      rw [List.cons_append, fixMalformedPhase1F, tryPhase1At_none_of_ne ha]
      obtain ⟨X, hX⟩ := ih (fun hm => hp (by simp [hm])) fuel q
      exact ⟨X, by rw [hX, List.cons_append]⟩

theorem phase1F_ampOK : ∀ fuel l, AmpOK l → AmpOK (fixMalformedPhase1F fuel l) := by
  intro fuel
  induction fuel with
  | zero =>
    intro l h
    cases l with
    | nil => exact h
    | cons b t => exact h
  | succ fuel ih =>
    intro l h
    cases l with
    | nil => exact ampOK_nil
    | cons b t =>
      rw [fixMalformedPhase1F]
      cases htp : tryPhase1At (b :: t) with
      | none =>
        dsimp only
        by_cases hb : b = 38
        · subst hb
          have hg : isGoEntityStart (38 :: t) = true := h [] t rfl
          obtain ⟨body, rest₂, rfl, h38, h60, hX⟩ := entityStart_decomp hg
          obtain ⟨X, hXeq⟩ := phase1F_pref h60 fuel rest₂
          rw [hXeq]
          exact ampOK_cons38 (hX _) (by rw [← hXeq]; exact ih _ (ampOK_tail h))
        · exact ampOK_cons_of hb (ih _ (ampOK_tail h))
      | some ma =>
        obtain ⟨mtch, after⟩ := ma
        obtain ⟨hs, hlen, tl, rfl, h38d⟩ := tryPhase1At_structure htp
        dsimp only
        rw [bytesOf_lt_eq]
        have hafter : AmpOK after := by
          rw [hs] at h
          exact ampOK_drop h
        have hshape : ([38, 108, 116, 59] ++ (60 :: tl).drop 1) ++ fixMalformedPhase1F fuel after
            = 38 :: ([108, 116, 59] ++ (tl ++ fixMalformedPhase1F fuel after)) := by
          simp
        rw [hshape]
        refine ampOK_cons38 (entityStart_lt _) (ampOK_pre (by decide) ?_)
        by_cases h38m : (38 : Nat) ∈ tl
        · obtain ⟨tl₀, q₁, htl⟩ := List.append_of_mem h38m
          have hq₁ : q₁ = [] := h38d tl₀ q₁ htl
          subst hq₁
          have h38tl₀ : (38 : Nat) ∉ tl₀ := by
            intro hm
            obtain ⟨u, v, hu⟩ := List.append_of_mem hm
            have := h38d u (v ++ 38 :: []) (by rw [htl, hu]; simp)
            simp at this
          rw [htl]
          have hr : (tl₀ ++ [38]) ++ fixMalformedPhase1F fuel after
              = tl₀ ++ 38 :: fixMalformedPhase1F fuel after := by
            simp
          rw [hr]
          refine ampOK_pre h38tl₀ (ampOK_cons38 ?_ (ih _ hafter))
          have hgi : isGoEntityStart (38 :: after) = true := by
            apply h (60 :: tl₀) after
            rw [hs, htl]
            simp
          obtain ⟨body, rest₂, hbody, hb38, hb60, hXe⟩ := entityStart_decomp hgi
          obtain ⟨X, hXeq⟩ := phase1F_pref hb60 fuel rest₂
          rw [hbody, hXeq]
          exact hXe X
        · exact ampOK_pre h38m (ih _ hafter)

theorem expand_flatLegal_amp {l o : GoBytes} (hf : FlatLegal l)
    (h : ExpandBy 38 (bytesOf "&amp;") l o) : FlatLegal o := by
  obtain ⟨rs, rfl, hleg⟩ := hf
  exact expandBy_flatLegal (by decide) (by decide) rs o hleg h

theorem expand_flatLegal_lt {l o : GoBytes} (hf : FlatLegal l)
    (h : ExpandBy 60 (bytesOf "&lt;") l o) : FlatLegal o := by
  obtain ⟨rs, rfl, hleg⟩ := hf
  exact expandBy_flatLegal (by decide) (by decide) rs o hleg h

theorem sanitizeFB2XML_fixpoint {s : GoBytes} (hf : FlatLegal s) (hok : AmpOK s)
    (hlt : LtOK s) : sanitizeFB2XML s = s := by
  obtain ⟨rs, rfl, hleg⟩ := hf
  have hval : utf8Valid (runesFlat rs) = true :=
    utf8ValidF_flat rs (fun r hr => legal_scalar (hleg r hr)) _ (le_refl _)
  have hri : removeIllegalXMLChars (runesFlat rs) = runesFlat rs := by
    unfold removeIllegalXMLChars
    exact removeIllegalF_flat_id rs hleg _ (le_refl _)
  unfold sanitizeFB2XML
  dsimp only
  rw [if_pos hval, hri, fixAmp_id_of_ampOK _ hok]
  unfold fixMalformedTags fixMalformedPhase1
  rw [phase1F_id_of_ltOK _ _ hlt]
  exact phase2_id_of_ltOK _ hlt

/-- C10: the FB2 sanitizer is idempotent — for every input byte string,
applying `sanitizeFB2XML` to its own output returns that output
unchanged. -/
theorem sanitizeFB2XML_idempotent (data : GoBytes) :
    sanitizeFB2XML (sanitizeFB2XML data) = sanitizeFB2XML data := by
  have hm : FlatLegal (removeIllegalXMLChars (if utf8Valid data then data
      else fixInvalidUTF8 data)) := by
    unfold removeIllegalXMLChars
    exact removeIllegalF_flatLegal _ _ (le_refl _)
  have ha : FlatLegal (fixUnescapedAmpersands (removeIllegalXMLChars
      (if utf8Valid data then data else fixInvalidUTF8 data))) :=
    expand_flatLegal_amp hm (fixAmp_expand _)
  have hp1 : FlatLegal (fixMalformedPhase1 (fixUnescapedAmpersands (removeIllegalXMLChars
      (if utf8Valid data then data else fixInvalidUTF8 data)))) :=
    expand_flatLegal_lt ha (phase1_expand _)
  have hsf : FlatLegal (sanitizeFB2XML data) := by
    unfold sanitizeFB2XML fixMalformedTags
    exact expand_flatLegal_lt hp1 (phase2_expand _)
  have hsok : AmpOK (sanitizeFB2XML data) := by
    unfold sanitizeFB2XML fixMalformedTags fixMalformedPhase1
    exact phase2_ampOK _ (phase1F_ampOK _ _ (fixAmp_ampOK _))
  have hslt : LtOK (sanitizeFB2XML data) := by
    unfold sanitizeFB2XML fixMalformedTags
    exact phase2_ltOK _
  exact sanitizeFB2XML_fixpoint hsf hsok hslt
